import Mathlib

/-!
Verification of the LStore storage and transaction core against its
specification.  The Python source under lstore/ is shallowly embedded:
stateful methods become pure functions on explicit state records, Python
dictionaries become association lists (insertion ordered, like Python
dicts), and Python exceptions become Option/Except failures.  Machine
integers are modelled as Int (the source manipulates unbounded Python
ints and only serialises them to fixed-width big-endian bytes at page
boundaries; the byte codec is value-preserving for the ranges exercised
here, so values are carried directly).
-/

/-! ## Association list helpers (Python dict semantics) -/

/-- Lookup in an insertion-ordered association list, like dict.get. -/
def assocLookup {κ α : Type} [DecidableEq κ] (k : κ) : List (κ × α) → Option α
  | [] => none
  | (k2, v) :: rest => if k2 = k then some v else assocLookup k rest

/-- Write through an insertion-ordered association list, like d[k] = v:
an existing key keeps its position, a new key is appended at the end. -/
def assocSet {κ α : Type} [DecidableEq κ] (k : κ) (v : α) : List (κ × α) → List (κ × α)
  | [] => [(k, v)]
  | (k2, v2) :: rest => if k2 = k then (k, v) :: rest else (k2, v2) :: assocSet k v rest

/-- Remove a key from an association list, like dict.pop. -/
def assocErase {κ α : Type} [DecidableEq κ] (k : κ) : List (κ × α) → List (κ × α)
  | [] => []
  | (k2, v2) :: rest => if k2 = k then rest else (k2, v2) :: assocErase k rest

/-- Map the value stored under one key, leaving its position unchanged. -/
def assocMapAt {κ α : Type} [DecidableEq κ] (k : κ) (f : α → α) : List (κ × α) → List (κ × α)
  | [] => []
  | (k2, v2) :: rest => if k2 = k then (k2, f v2) :: rest else (k2, v2) :: assocMapAt k f rest

/-! ## Python truthiness

transaction.run returns True, False or -1; transaction_worker branches on
the truthiness of that value.  In Python -1 is truthy, which matters for
claims C1 and C2, so the three possible results are modelled explicitly. -/

/-- The three values Transaction.run can produce: True, False, or -1. -/
inductive PyVal where
  | pyTrue
  | pyFalse
  | pyNegOne
deriving DecidableEq

/-- Python truthiness: bool(True) = True, bool(False) = False, bool(-1) = True. -/
def PyVal.truthy : PyVal → Bool
  | .pyTrue => true
  | .pyFalse => false
  | .pyNegOne => true

/-! ## lock_manager.py -/

/-- Lock mode: "S" (shared) or "X" (exclusive). -/
inductive LockMode where
  | S
  | X
deriving DecidableEq

/-- One lock entry, a ("S" or "X", transaction id) tuple from lock_manager.py. -/
abbrev LockEntry := LockMode × Int

/-- LockManager state: locks maps RID to the list of lock entries on it,
lock_owners maps a transaction id to the list of RIDs it holds locks on. -/
structure LockManager where
  locks : List (Int × List LockEntry)
  lockOwners : List (Int × List Int)
deriving DecidableEq

/-- A fresh LockManager: both dictionaries empty. -/
def LockManager.init : LockManager := { locks := [], lockOwners := [] }

/-- LockManager.__add_lock_owner: record that the transaction owns a lock
on key. -/
def addLockOwner (lm : LockManager) (key txn : Int) : LockManager :=
  match assocLookup txn lm.lockOwners with
  | none => { lm with lockOwners := lm.lockOwners ++ [(txn, [key])] }
  | some ks => { lm with lockOwners := assocSet txn (ks ++ [key]) lm.lockOwners }

/-- The inner loop of acquire_shared_lock over the existing lock list.
Returns none when the request must be rejected (a foreign exclusive lock),
some true when the transaction already holds a lock on the record (break),
and some false when a new shared lock may be appended. -/
def sharedScan (txn : Int) : List LockEntry → Option Bool
  | [] => some false
  | lk :: rest =>
    if lk.2 = txn then some true
    else if lk.1 = LockMode.X then none
    else sharedScan txn rest

/-- LockManager.acquire_shared_lock, iterating over the requested keys.
On rejection the method returns immediately, keeping locks already granted
to earlier keys in this call (the caller releases on abort). -/
def acquireSharedGo (txn : Int) : List Int → LockManager → Bool × LockManager
  | [], lm => (true, lm)
  | key :: rest, lm =>
    match assocLookup key lm.locks with
    | none =>
      let lm2 := { lm with locks := assocSet key [(LockMode.S, txn)] lm.locks }
      acquireSharedGo txn rest (addLockOwner lm2 key txn)
    | some l =>
      match sharedScan txn l with
      | none => (false, lm)
      | some true => acquireSharedGo txn rest lm
      | some false =>
        let lm2 := { lm with locks := assocSet key (l ++ [(LockMode.S, txn)]) lm.locks }
        acquireSharedGo txn rest (addLockOwner lm2 key txn)

/-- LockManager.acquire_shared_lock. -/
def LockManager.acquireSharedLock (lm : LockManager) (keys : List Int) (txn : Int) :
    Bool × LockManager :=
  acquireSharedGo txn keys lm

/-- The inner loop of acquire_exclusive_lock over the existing lock list.
fullLen is len(self.locks[key]) as read by the upgrade condition.  Returns
none when the request is rejected (some lock held by another transaction),
otherwise the possibly upgraded lock list.  Encountering an exclusive lock
held by this transaction stops the scan (break), leaving the remainder of
the list unchanged. -/
def exclScan (txn : Int) (fullLen : Nat) : List LockEntry → Option (List LockEntry)
  | [] => some []
  | lk :: rest =>
    if lk.1 = LockMode.X ∧ lk.2 = txn then some (lk :: rest)
    else if lk.2 ≠ txn then none
    else
      let lk2 := if lk.1 = LockMode.S ∧ lk.2 = txn ∧ fullLen = 1 then (LockMode.X, txn) else lk
      (exclScan txn fullLen rest).map (fun tail => lk2 :: tail)

/-- LockManager.acquire_exclusive_lock, iterating over the requested keys. -/
def acquireExclusiveGo (txn : Int) : List Int → LockManager → Bool × LockManager
  | [], lm => (true, lm)
  | key :: rest, lm =>
    match assocLookup key lm.locks with
    | none =>
      let lm2 := { lm with locks := assocSet key [(LockMode.X, txn)] lm.locks }
      acquireExclusiveGo txn rest (addLockOwner lm2 key txn)
    | some l =>
      match exclScan txn l.length l with
      | none => (false, lm)
      | some l2 => acquireExclusiveGo txn rest { lm with locks := assocSet key l2 lm.locks }

/-- LockManager.acquire_exclusive_lock. -/
def LockManager.acquireExclusiveLock (lm : LockManager) (keys : List Int) (txn : Int) :
    Bool × LockManager :=
  acquireExclusiveGo txn keys lm

/-- Drop every lock entry owned by the transaction from one lock list. -/
def removeTxnLocks (txn : Int) (l : List LockEntry) : List LockEntry :=
  l.filter (fun lk => lk.2 ≠ txn)

/-- One step of release_held_locks: strip the transaction from the lock list
of one key, removing the mapping entirely when it becomes empty. -/
def releaseKey (txn : Int) (locks : List (Int × List LockEntry)) (key : Int) :
    List (Int × List LockEntry) :=
  match assocLookup key locks with
  | none => locks
  | some l =>
    let l2 := removeTxnLocks txn l
    if l2 = [] then assocErase key locks else assocSet key l2 locks

/-- LockManager.release_held_locks: remove every lock owned by the
transaction and drop its owners entry. -/
def LockManager.releaseHeldLocks (lm : LockManager) (txn : Int) : LockManager :=
  match assocLookup txn lm.lockOwners with
  | none => lm
  | some keys =>
    { locks := keys.foldl (releaseKey txn) lm.locks
      lockOwners := assocErase txn lm.lockOwners }

/-- The lock list currently held on a record (empty when the rid is absent,
mirroring locks.get(key, -1) == -1). -/
def locksOf (lm : LockManager) (r : Int) : List LockEntry :=
  (assocLookup r lm.locks).getD []

/-- Well-formedness of the lock table, invariant over all reachable states:
every stored lock list is nonempty (empty lists are popped on release), an
exclusive lock is always the sole lock on its record, and no transaction
holds two locks on the same record. -/
def WFLockTable (lm : LockManager) : Prop :=
  ∀ e ∈ lm.locks,
    e.2 ≠ [] ∧ (∀ lk ∈ e.2, lk.1 = LockMode.X → e.2 = [lk]) ∧ (e.2.map Prod.snd).Nodup

instance : DecidablePred WFLockTable := by
  intro lm
  unfold WFLockTable
  infer_instance

/-! ## transaction.py -/

/-- The lock request a query generates in Transaction.__acquire_all_locks.
The rid sets come from the index (none models the rids == -1 case, in which
no lock is requested and the step succeeds); integrity is the dedicated -1
result of __acquire_lock_for_insert / __acquire_lock_for_update when a
duplicate primary key is detected. -/
inductive PreAcquire where
  | shared (rids : Option (List Int))
  | exclusive (rids : Option (List Int))
  | integrity
deriving DecidableEq

/-- One query of a transaction: the lock request computed in the pre-acquire
phase and the truthiness of the query result in the execute phase. -/
structure TQuery where
  pre : PreAcquire
  execOk : Bool
deriving DecidableEq

/-- Transaction.__acquire_all_locks: walk the queries, acquiring lock sets;
the first rejection returns False, a detected integrity violation returns -1,
otherwise True.  Locks granted before a rejection stay in place. -/
def acquireAllLocks (txn : Int) : List PreAcquire → LockManager → PyVal × LockManager
  | [], lm => (.pyTrue, lm)
  | q :: qs, lm =>
    match q with
    | .shared none => acquireAllLocks txn qs lm
    | .shared (some rids) =>
      match lm.acquireSharedLock rids txn with
      | (true, lm2) => acquireAllLocks txn qs lm2
      | (false, lm2) => (.pyFalse, lm2)
    | .exclusive none => acquireAllLocks txn qs lm
    | .exclusive (some rids) =>
      match lm.acquireExclusiveLock rids txn with
      | (true, lm2) => acquireAllLocks txn qs lm2
      | (false, lm2) => (.pyFalse, lm2)
    | .integrity => (.pyNegOne, lm)

/-- Transaction.run: pre-acquire all locks, then execute.  A failed acquire
aborts (release, return False); an integrity violation releases and returns
-1; during execution the first query returning a falsy value calls abort()
(releasing the locks) but then returns -1, discarding the False produced by
abort; otherwise commit (release, return True).  The table side effects of
the queries themselves are outside this claim and are not modelled. -/
def Transaction.run (txn : Int) (queries : List TQuery) (lm : LockManager) :
    PyVal × LockManager :=
  match acquireAllLocks txn (queries.map TQuery.pre) lm with
  | (.pyFalse, lm2) => (.pyFalse, lm2.releaseHeldLocks txn)
  | (.pyNegOne, lm2) => (.pyNegOne, lm2.releaseHeldLocks txn)
  | (.pyTrue, lm2) =>
    if queries.all TQuery.execOk then (.pyTrue, lm2.releaseHeldLocks txn)
    else (.pyNegOne, lm2.releaseHeldLocks txn)

/-! ## transaction_worker.py

A transaction is abstracted by the stream of values its successive run()
calls produce; the worker retries until a truthy value appears.  The
streams used below always end with a truthy value, as run eventually
returns True or -1 in the source. -/

/-- The stats entries one transaction contributes in TransactionWorker.__run:
one False per falsy run result (retry), then a single True appended after
the retry loop breaks.  Because -1 is truthy, the val == -1 branch of the
source is unreachable and an integrity violation also breaks out to the
final append of True. -/
def transactionStats : List PyVal → List Bool
  | [] => []
  | v :: rest => if v.truthy then [true] else false :: transactionStats rest

/-- The full stats list of TransactionWorker.__run over its transactions. -/
def workerStats (ts : List (List PyVal)) : List Bool :=
  ts.foldl (fun acc t => acc ++ transactionStats t) []

/-- TransactionWorker.result: the number of truthy entries of stats. -/
def workerResult (ts : List (List PyVal)) : Nat :=
  ((workerStats ts).filter (fun b => b)).length

/-! ## page.py PhysicalPage -/

/-- A physical page: header fields plus the decoded body slots.  The byte
serialisation of the W-byte big-endian slots is elided; body holds the
decoded integer values.  pin_count and is_dirty are the in-memory
augmentation used by the buffer pool. -/
structure PhysicalPage where
  numRecords : Int
  tps : Int
  numUpdates : Int
  body : List Int
  isDirty : Bool
  pinCount : Int
deriving DecidableEq

/-- A freshly constructed PhysicalPage. -/
def PhysicalPage.init : PhysicalPage :=
  { numRecords := 0, tps := 0, numUpdates := 0, body := [], isDirty := false, pinCount := 0 }

/-- The Python exception raised by threading.Lock.release when the lock is
not held. -/
inductive PyExn where
  | releaseUnacquiredLock
deriving DecidableEq

/-- PhysicalPage.write(value, offset), parameterised by the page capacity
M = (PAGE_SIZE - PHYSICAL_PAGE_METADATA_SIZE) // COLUMN_SIZE (config.py is
not part of the sources; with the typical PAGE_SIZE = 4096, W = 8 and a
three-field header, M = 509).  write never acquires self.lock, yet its
out-of-range branch executes self.lock.release(); releasing an unheld
threading.Lock raises RuntimeError, modelled as an error result.  On
success the slot is overwritten, the header is re-serialised, the dirty
bit is set, and the method returns the offset (not True). -/
def PhysicalPage.write (M : Nat) (p : PhysicalPage) (value : Int) (offset : Nat) :
    Except PyExn (PhysicalPage × Nat) :=
  if M ≤ offset then
    Except.error PyExn.releaseUnacquiredLock
  else
    Except.ok ({ p with body := p.body.set offset value, isDirty := true }, offset)

/-! ## bufferpool.py -/

/-- The path identifying one physical page on disk:
db-root/table/page_range K/page P/col C. -/
structure PPath where
  table : String
  pageRange : Nat
  page : Nat
  column : Nat
deriving DecidableEq

/-- Bufferpool state: the path-keyed page map, the fixed capacity
BUFFERPOOL_SIZE, the LRU queue of paths (front = least recently used), and
the backing disk contents (one file per physical page).  The per-path
fetch locks and the eviction mutex coordinate threads and have no
single-threaded content. -/
structure Bufferpool where
  pages : List (PPath × PhysicalPage)
  maxCapacity : Nat
  lruPages : List PPath
  disk : PPath → PhysicalPage

/-- Bufferpool.has_capacity. -/
def Bufferpool.hasCapacity (bp : Bufferpool) : Bool :=
  if bp.pages.length = bp.maxCapacity then false else true

/-- Remove the first occurrence of a path from the LRU queue
(deque.remove). -/
def removeFirstPath (victim : PPath) : List PPath → List PPath
  | [] => []
  | p :: ps => if p = victim then ps else p :: removeFirstPath victim ps

/-- Bufferpool.__evict: nothing to do below capacity; otherwise the first
path in LRU order whose page is unpinned is the victim (written back first
when dirty); when every resident page is pinned the attempt fails and the
pool is left unchanged.  The Bool mirrors the True/False results (the
caller discards it). -/
def Bufferpool.evict (bp : Bufferpool) : Bufferpool × Bool :=
  if bp.pages.length < bp.maxCapacity then (bp, true)
  else
    match bp.lruPages.find? (fun q =>
        match assocLookup q bp.pages with
        | some pg => pg.pinCount = 0
        | none => false) with
    | none => (bp, false)
    | some victim =>
      let pg := (assocLookup victim bp.pages).getD PhysicalPage.init
      let bp2 :=
        if pg.isDirty then
          { bp with disk := fun q => if q = victim then pg else bp.disk q }
        else bp
      ({ bp2 with
          pages := assocErase victim bp2.pages
          lruPages := removeFirstPath victim bp2.lruPages }, true)

/-- Bufferpool.__get_physical_page_helper: a cached page is returned as is
(the LRU queue is not touched); on a miss, when the pool is full and the
page is to be admitted, one eviction is attempted (its result is ignored),
the page is loaded from disk, and, when admitting, it is stored in the
pool with its path appended at the back of the LRU queue. -/
def Bufferpool.getPhysicalPageHelper (bp : Bufferpool) (path : PPath)
    (addToBufferpool : Bool) : Bufferpool × PhysicalPage :=
  match assocLookup path bp.pages with
  | some pg => (bp, pg)
  | none =>
    let bp1 := if !bp.hasCapacity && addToBufferpool then (bp.evict).1 else bp
    let page := bp1.disk path
    if addToBufferpool then
      ({ bp1 with
          pages := assocSet path page bp1.pages
          lruPages := bp1.lruPages ++ [path] }, page)
    else (bp1, page)

/-- Bufferpool.get_physical_page (admitting variant). -/
def Bufferpool.getPhysicalPage (bp : Bufferpool) (path : PPath) :
    Bufferpool × PhysicalPage :=
  bp.getPhysicalPageHelper path true

/-- An empty pool of capacity two over an all-zero disk, used to exercise
the LRU behaviour. -/
def bpEmptyTwo : Bufferpool :=
  { pages := [], maxCapacity := 2, lruPages := [], disk := fun _ => PhysicalPage.init }

/-- A first physical-page path. -/
def pathA : PPath := { table := "t", pageRange := 0, page := 0, column := 0 }

/-- A second, distinct physical-page path. -/
def pathB : PPath := { table := "t", pageRange := 0, page := 0, column := 1 }

/-- A pool at capacity one whose only resident page is pinned. -/
def bpPinned : Bufferpool :=
  { pages := [(pathA, { PhysicalPage.init with pinCount := 1 })]
    maxCapacity := 1
    lruPages := [pathA]
    disk := fun _ => PhysicalPage.init }

/-! ## table.py Table.__merge_helper, tail-page loop

The merge consolidation is embedded as far as claim C4 reaches: which tail
pages the loop fetches and when it stops.  The environment carries the
values the loop reads (tail-page RID columns, primary keys, the index, the
base page); the copying of data-column values into the base-page copy only
mutates page contents and is elided, its effect on the loop being captured
by the updated-rids map and the num_updates counter. -/

/-- The inputs of one merge invocation. -/
structure MergeEnv where
  maxTpNum : Nat
  hasCap : Nat → Bool
  tids : Nat → List Int
  pk : Nat → Nat → Int
  locateFirst : Int → Int
  baseRids : List Int
  baseNumRecords : Nat
  baseTps : Int

/-- The inner entry loop of __merge_helper over one tail page, iterating
entries from the last offset down to 0: track the maximum TID, resolve the
primary key to a base rid through the index, and mark the base rid updated
the first time it is seen (copying its data columns in the source). -/
def mergeEntryLoop (env : MergeEnv) (pageNum : Nat) :
    List Nat → List (Int × Bool) × Nat × Int → List (Int × Bool) × Nat × Int
  | [], st => st
  | i :: is, (updated, numUp, maxTid) =>
    let maxTid2 := max ((env.tids pageNum).getD i 0) maxTid
    let baseRid := env.locateFirst (env.pk pageNum i)
    match assocLookup baseRid updated with
    | none => mergeEntryLoop env pageNum is (updated, numUp, maxTid2)
    | some true => mergeEntryLoop env pageNum is (updated, numUp, maxTid2)
    | some false =>
      mergeEntryLoop env pageNum is (assocSet baseRid true updated, numUp + 1, maxTid2)

/-- The tail-page loop of __merge_helper.  mxTp is the (adjusted)
max_tp_num local variable; current is the loop counter current_tp_num.
Each iteration fetches the page numbered max_tp_num, exactly as the source
does, and records it in visited; the loop breaks when the smallest TID of
the fetched page is below the TPS of the base page, or when every base
record has been updated, and otherwise decrements current.  The fuel
argument bounds the iterations (current decreases to MAX_BASE_PAGES - 1). -/
def mergeTailLoop (env : MergeEnv) (mxTp : Nat) :
    List (Int × Bool) → Nat → Int → Nat → Nat → List Nat → List Nat
  | _, _, _, _, 0, visited => visited
  | updated, numUp, maxTid, current, fuel + 1, visited =>
    if current < 16 then visited
    else
      let pageNum := mxTp
      let tids := env.tids pageNum
      let maxTid2 := max (tids.getD 0 0) maxTid
      let visited2 := visited ++ [pageNum]
      if tids.getD 0 0 < env.baseTps then visited2
      else
        match mergeEntryLoop env pageNum ((List.range tids.length).reverse)
            (updated, numUp, maxTid2) with
        | (upd2, num2, max2) =>
          if num2 = env.baseNumRecords then visited2
          else mergeTailLoop env mxTp upd2 num2 max2 (current - 1) fuel visited2

/-- The sequence of tail-page numbers fetched by one __merge_helper call:
determine the newest tail page, back off by one when it is still partial
(returning at once when that leaves no full tail page), then run the
tail-page loop starting at that page number. -/
def mergeVisitedPages (env : MergeEnv) : List Nat :=
  let updated := env.baseRids.map (fun r => (r, false))
  let mx0 := env.maxTpNum
  if env.hasCap mx0 then
    if mx0 - 1 = 15 then []
    else mergeTailLoop env (mx0 - 1) updated 0 0 (mx0 - 1) (mx0 - 1 - 15) []
  else mergeTailLoop env mx0 updated 0 0 mx0 (mx0 - 15) []

/-- A page range with two full tail pages (numbers 16 and 17), a base page
of three records none of which is absorbed yet (TPS 0), and tail entries
that all resolve to base rid 0.  After processing page 17 only one base
record is updated, so the loop takes a second iteration. -/
def envC4 : MergeEnv :=
  { maxTpNum := 17
    hasCap := fun _ => false
    tids := fun p => if p = 17 then [3, 4] else [1, 2]
    pk := fun _ _ => 7
    locateFirst := fun _ => 0
    baseRids := [0, 5, 6]
    baseNumRecords := 3
    baseTps := 0 }

/-! ## table.py / query.py / index.py: the logical record store

The write and read paths of table.py and query.py are embedded at the
level of logical records.  Physical pages are flattened: records are
stored in a rid-keyed heap (the composition of the page directory with
the page contents, both written together by the source), while the page
directory keeps the (page_range, page, offset) triples the source
registers, with page numbers and offsets computed by the same capacity
arithmetic (a page holds pageCapacity records; tail pages start at
MAX_BASE_PAGES = 16).  All scenarios stay inside page range 0, so page
range rollover at 16 full base pages is not reached.  The timestamp column
holds wall-clock values never read by any claim and reads as 0. -/

/-- The configuration constants of config.py (absent from the sources):
the INDIRECTION_NULL sentinel, the per-page record capacity
M = (PAGE_SIZE - header) / W, MERGE_CONDITION and CREATE_INDICES_CONDITION. -/
structure LConfig where
  indNull : Int
  pageCapacity : Nat
  mergeCondition : Int
  createIndicesCondition : Int

/-- One stored record: the indirection, RID and schema-encoding metadata
columns plus the user data columns.  The timestamp column is elided (see
above). -/
structure StoredRecord where
  indirection : Int
  rid : Int
  schemaEncoding : Int
  columns : List Int
deriving DecidableEq

/-- A value-to-rids mapping of one column index (Python dict). -/
abbrev IdxMap := List (Int × List Int)

/-- The state of one table: the rid counter, the page directory, the
rid-keyed record heap, the per-column indices (None when absent), the RID
column contents of the base pages in order, the TPS and num_updates
headers of base page 0 (all modelled records live in base page 0), the
base and tail slot counters, the page-range count and the merge queue. -/
structure TableState where
  numRecords : Int
  numColumns : Nat
  key : Nat
  pageDirectory : List (Int × (Nat × Nat × Nat))
  heap : List (Int × StoredRecord)
  indices : List (Option IdxMap)
  baseRids : List Int
  tps : Int
  numUpdates : Int
  numBaseSlots : Nat
  numTailSlots : Nat
  numPageRanges : Nat
  mergeQueue : List (Nat × Nat)
deriving DecidableEq

/-- A freshly created table with N data columns and the given key column. -/
def initTable (N keyIdx : Nat) : TableState :=
  { numRecords := 0
    numColumns := N
    key := keyIdx
    pageDirectory := []
    heap := []
    indices := List.replicate (N + 4) none
    baseRids := []
    tps := 0
    numUpdates := 0
    numBaseSlots := 0
    numTailSlots := 0
    numPageRanges := 0
    mergeQueue := [] }

/-- Page-directory lookup (page_directory.get(rid, -1); none models -1). -/
def pdLookup (s : TableState) (rid : Int) : Option (Nat × Nat × Nat) :=
  assocLookup rid s.pageDirectory

/-- Heap lookup: the record stored at the location the page directory
assigns to the rid. -/
def heapLookup (s : TableState) (rid : Int) : Option StoredRecord :=
  assocLookup rid s.heap

/-- Project one absolute column (0 = indirection, 1 = RID, 2 = timestamp,
3 = schema encoding, 4 + i = data column i) out of a stored record. -/
def projColumn (r : StoredRecord) (col : Nat) : Int :=
  if col = 0 then r.indirection
  else if col = 1 then r.rid
  else if col = 2 then 0
  else if col = 3 then r.schemaEncoding
  else r.columns.getD (col - 4) 0

/-- bufferpool.get_record_column_val: resolve the rid through the page
directory and read one column value; none models the KeyError the source
raises on an unregistered rid. -/
def getRecordColumnVal (s : TableState) (rid : Int) (col : Nat) : Option Int :=
  match pdLookup s rid with
  | none => none
  | some _ => (heapLookup s rid).map (fun r => projColumn r col)

/-- bufferpool.get_record: the whole record read column by column through
the page directory. -/
def getRecord (s : TableState) (rid : Int) : Option StoredRecord :=
  match pdLookup s rid with
  | none => none
  | some _ => heapLookup s rid

/-- The indirection-chain walk of Table.get_record_version: the while loop
runs 1 - version times (version is non-positive), following the
indirection of the current record each iteration and stopping early when
it reads INDIRECTION_NULL. -/
def chaseIndirection (cfg : LConfig) (s : TableState) : Nat → Int → Option Int
  | 0, rid => some rid
  | fuel + 1, rid =>
    match getRecordColumnVal s rid 0 with
    | none => none
    | some ind =>
      if ind = cfg.indNull then some rid
      else chaseIndirection cfg s fuel ind

/-- Table.get_record_version: None when the rid is unregistered or does
not name a base page; when the indirection is at most the TPS of the base
page, the base record already holds the requested data; otherwise follow
the indirection chain version hops from the base record. -/
def getRecordVersion (cfg : LConfig) (s : TableState) (rid : Int) (version : Int) :
    Option StoredRecord :=
  match pdLookup s rid with
  | none => none
  | some (_, pg, _) =>
    if 16 ≤ pg then none
    else
      match getRecordColumnVal s rid 0 with
      | none => none
      | some ind =>
        if ind ≤ s.tps then getRecord s rid
        else
          match chaseIndirection cfg s (1 - version).toNat rid with
          | none => none
          | some rid2 => getRecord s rid2

/-- Table.get_record_column_version: same traversal, returning one column. -/
def getRecordColumnVersion (cfg : LConfig) (s : TableState) (rid : Int)
    (version : Int) (col : Nat) : Option Int :=
  match pdLookup s rid with
  | none => none
  | some (_, pg, _) =>
    if 16 ≤ pg then none
    else
      match getRecordColumnVal s rid 0 with
      | none => none
      | some ind =>
        if ind ≤ s.tps then getRecordColumnVal s rid col
        else
          match chaseIndirection cfg s (1 - version).toNat rid with
          | none => none
          | some rid2 => getRecordColumnVal s rid2 col

/-- Table.get_latest_column_val = get_record_column_version at version 0. -/
def getLatestColumnVal (cfg : LConfig) (s : TableState) (rid : Int) (col : Nat) :
    Option Int :=
  getRecordColumnVersion cfg s rid 0 col

/-- Index.locate: none models the -1 returned both when the column has no
index and when the value is absent from it. -/
def locateIdx (s : TableState) (col : Nat) (value : Int) : Option (List Int) :=
  match s.indices.getD col none with
  | none => none
  | some m => assocLookup value m

/-- Index.add / Index.__index_base_page_data insertion: append the rid to
the list mapped by the value, creating the mapping when absent. -/
def idxAdd (m : IdxMap) (k : Int) (rid : Int) : IdxMap :=
  match assocLookup k m with
  | none => m ++ [(k, [rid])]
  | some l => assocSet k (l ++ [rid]) m

/-- Index.create_index: scan every base record and map its latest value in
the column to its rid (records whose latest value reads None are skipped). -/
def createIndex (cfg : LConfig) (s : TableState) (col : Nat) : TableState :=
  let m := s.baseRids.foldl
    (fun m rid =>
      match getLatestColumnVal cfg s rid col with
      | none => m
      | some v => idxAdd m v rid)
    []
  { s with indices := s.indices.set col (some m) }

/-- Table.scan: walk every base record, keep those whose requested-version
value in the column equals the search key, and fetch them at that version. -/
def Table.scan (cfg : LConfig) (s : TableState) (searchKey : Int) (colNum : Nat)
    (version : Int) : List StoredRecord :=
  s.baseRids.filterMap (fun r =>
    match getRecordColumnVersion cfg s r version colNum with
    | none => none
    | some v => if v = searchKey then getRecordVersion cfg s r version else none)

/-- The projection loop of Query.select_version: keep the data columns
whose projection flag is 1. -/
def projectCols : List Int → List Int → List Int
  | [], _ => []
  | _ :: _, [] => []
  | p :: ps, c :: cs => if p = 1 then c :: projectCols ps cs else projectCols ps cs

/-- The index-lookup path of Query.select_version: the rids mapped by the
search key (an absent key yields the empty result), each fetched at the
requested version (a missing record is skipped) and projected. -/
def selectFromIndex (cfg : LConfig) (s : TableState) (searchKey : Int)
    (searchKeyIndex : Nat) (proj : List Int) (relVersion : Int) : List (List Int) :=
  match locateIdx s (4 + searchKeyIndex) searchKey with
  | none => []
  | some rids =>
    rids.filterMap (fun rid =>
      (getRecordVersion cfg s rid relVersion).map (fun r2 => projectCols proj r2.columns))

/-- Query.select_version: when the search column is unindexed, build the
index when num_records is an exact multiple of CREATE_INDICES_CONDITION
and otherwise answer by a scan; in all other cases answer through the
index.  Returned are the projected data columns of the matching records
together with the resulting table state. -/
def Query.selectVersion (cfg : LConfig) (s : TableState) (searchKey : Int)
    (searchKeyIndex : Nat) (proj : List Int) (relVersion : Int) :
    List (List Int) × TableState :=
  if (s.indices.getD (4 + searchKeyIndex) none).isNone then
    if s.numRecords % cfg.createIndicesCondition = 0 then
      let s1 := createIndex cfg s (4 + searchKeyIndex)
      (selectFromIndex cfg s1 searchKey searchKeyIndex proj relVersion, s1)
    else
      ((Table.scan cfg s searchKey (4 + searchKeyIndex) relVersion).map
        (fun r => projectCols proj r.columns), s)
  else
    (selectFromIndex cfg s searchKey searchKeyIndex proj relVersion, s)

/-- The cumulative-update computation of Query.update: copy the previous
columns and overwrite every position the update supplies. -/
def applyUpd : List Int → List (Option Int) → List Int
  | [], _ => []
  | cs, [] => cs
  | c :: cs, o :: os => (o.getD c) :: applyUpd cs os

/-- The index-maintenance loop of Query.insert: for every data column that
is indexed, add a mapping from the inserted value to the new rid. -/
def insertIdxLoop (cols : List Int) (rid : Int) (idxs : List (Option IdxMap)) :
    List Nat → List (Option IdxMap)
  | [] => idxs
  | i :: is =>
    match idxs.getD (4 + i) none with
    | none => insertIdxLoop cols rid idxs is
    | some m => insertIdxLoop cols rid (idxs.set (4 + i) (some (idxAdd m (cols.getD i 0) rid))) is

/-- The common tail of Query.insert after rid allocation: reserve the next
base slot, write the record (which also appends its rid to the base RID
column), register it in the page directory with the location the capacity
arithmetic assigns, and update every active index. -/
def insertWriteRecord (cfg : LConfig) (s : TableState) (rid : Int) (cols : List Int) :
    Bool × TableState :=
  let offsetG := s.numBaseSlots
  let s1 := { s with numBaseSlots := offsetG + 1 }
  let newRec : StoredRecord :=
    { indirection := cfg.indNull, rid := rid, schemaEncoding := 0, columns := cols }
  let s2 := { s1 with heap := assocSet rid newRec s1.heap, baseRids := s1.baseRids ++ [rid] }
  let s3 := { s2 with
    pageDirectory :=
      assocSet rid (0, offsetG / cfg.pageCapacity, offsetG % cfg.pageCapacity)
        s2.pageDirectory }
  let s4 := { s3 with indices := insertIdxLoop cols rid s3.indices (List.range cols.length) }
  (true, s4)

/-- Query.insert: reject a duplicate primary key when the key column is
indexed; allocate the rid by pre-incrementing the record counter; on the
very first insert create page range 0 with base page 0, pre-register the
rid and create the primary-key index (still empty, since the record is
written afterwards); then write the record.  Base-page and page-range
rollover follow the slot arithmetic of the capacity checks. -/
def Query.insert (cfg : LConfig) (s : TableState) (cols : List Int) :
    Bool × TableState :=
  let dup :=
    match s.indices.getD (4 + s.key) none with
    | none => false
    | some m => (assocLookup (cols.getD s.key 0) m).isSome
  if dup then (false, s)
  else
    let rid : Int := s.numRecords
    let s1 := { s with numRecords := s.numRecords + 1 }
    if s1.numPageRanges = 0 then
      let s2 := { s1 with numPageRanges := 1 }
      let s3 := { s2 with pageDirectory := assocSet rid (0, 0, 0) s2.pageDirectory }
      let s4 := createIndex cfg s3 (4 + s1.key)
      insertWriteRecord cfg s4 rid cols
    else
      insertWriteRecord cfg s1 rid cols

/-- Table.change_indirection: overwrite the indirection slot of a base
record; a missing or non-base rid leaves the state unchanged (the source
returns False). -/
def changeIndirection (s : TableState) (tailRid baseRid : Int) : TableState :=
  match pdLookup s baseRid with
  | none => s
  | some (_, pg, _) =>
    if pg < 16 then
      { s with heap := assocMapAt baseRid (fun r => { r with indirection := tailRid }) s.heap }
    else s

/-- Table.update_schema_encoding: no-op on an empty column list; otherwise
set a bit for every data column whose previous value differs from the
updated one, OR the previous mask in, and store the result (the source
guards on page_range_num < MAX_BASE_PAGES). -/
def updateSchemaEncoding (s : TableState) (baseRid : Int) (oldSchema : Int)
    (columns updatedCols : List Int) : TableState :=
  if columns.length = 0 then s
  else
    match pdLookup s baseRid with
    | none => s
    | some (pr, _, _) =>
      if pr < 16 then
        let newSchema := (List.range s.numColumns).foldl
          (fun acc i => acc * 2 + (if columns.getD i 0 ≠ updatedCols.getD i 0 then 1 else 0))
          (0 : Int)
        let heap2 := assocMapAt baseRid
          (fun r => { r with schemaEncoding := Int.lor newSchema oldSchema }) s.heap
        { s with heap := heap2 }
      else s

/-- Index.update_index: a no-op unless both the target column and the
primary-key column are indexed; otherwise move the base rid from the old
value to the new one, dropping the old mapping when it empties.  none
models the KeyError / ValueError the source raises when the old value or
the rid is not present. -/
def updateIndexOp (idxs : List (Option IdxMap)) (keyCol colNum : Nat)
    (oldV newV baseRid : Int) : Option (List (Option IdxMap)) :=
  match idxs.getD colNum none, idxs.getD keyCol none with
  | some m, some _ =>
    match assocLookup oldV m with
    | none => none
    | some l =>
      if baseRid ∈ l then
        let l2 := l.erase baseRid
        let m2 := if l2 = [] then assocErase oldV m else assocSet oldV l2 m
        some (idxs.set colNum (some (idxAdd m2 newV baseRid)))
      else none
  | _, _ => some idxs

/-- The index-maintenance loop of Query.__insert_to_tail_page: for every
data column (the old values are plain ints, so the None guard of the
source is always passed) that is indexed, update its mapping from the old
to the new value. -/
def tailIdxLoop (keyCol : Nat) (baseRid : Int) (columns updatedCols : List Int) :
    List Nat → List (Option IdxMap) → Option (List (Option IdxMap))
  | [], idxs => some idxs
  | i :: is, idxs =>
    if (idxs.getD (4 + i) none).isSome then
      match updateIndexOp idxs keyCol (4 + i) (columns.getD i 0) (updatedCols.getD i 0) baseRid with
      | none => none
      | some idxs2 => tailIdxLoop keyCol baseRid columns updatedCols is idxs2
    else tailIdxLoop keyCol baseRid columns updatedCols is idxs

/-- Query.__insert_to_tail_page: allocate the tail rid by pre-incrementing
the record counter, reserve the next tail slot (allocating a new tail page
when the current one is full, reflected in the slot arithmetic), bump the
num_updates header of the base page, write the tail record, register it in
the page directory, point the base record indirection at it, fold the new
schema-encoding bits in, update the affected indices, and enqueue the base
page for merge when num_updates hits the merge condition while the base
page is full. -/
def insertToTailPage (cfg : LConfig) (s : TableState) (baseRid : Int)
    (columns : List Int) (newRec : StoredRecord) : Option (TableState × Int) :=
  match pdLookup s baseRid with
  | none => none
  | some (_, basePg, _) =>
    let rid : Int := s.numRecords
    let s1 := { s with numRecords := s.numRecords + 1 }
    let j := s1.numTailSlots
    let tailPg := 16 + j / cfg.pageCapacity
    let offset := j % cfg.pageCapacity
    let s2 := { s1 with numTailSlots := j + 1 }
    let numUpd := s2.numUpdates + 1
    let s3 := { s2 with numUpdates := numUpd }
    let s4 := { s3 with heap := assocSet rid { newRec with rid := rid } s3.heap }
    let s5 := { s4 with pageDirectory := assocSet rid (0, tailPg, offset) s4.pageDirectory }
    let s6 := changeIndirection s5 rid baseRid
    match getRecordColumnVal s6 baseRid 3 with
    | none => none
    | some oldSchema =>
      let s7 := updateSchemaEncoding s6 baseRid oldSchema columns newRec.columns
      match tailIdxLoop (4 + s7.key) baseRid columns newRec.columns
          (List.range columns.length) s7.indices with
      | none => none
      | some idxs2 =>
        let s8 := { s7 with indices := idxs2 }
        let s9 :=
          if numUpd > 0 ∧ numUpd % cfg.mergeCondition = 0 then
            if ¬ (s8.numBaseSlots < (basePg + 1) * cfg.pageCapacity) then
              { s8 with mergeQueue := s8.mergeQueue ++ [(0, basePg)] }
            else s8
          else s8
        some (s9, rid)

/-- Query.update: a no-op (returning True) when every supplied column is
None or when the primary key is absent from the index; False when the
update would move the primary key onto an existing one; otherwise compute
the cumulative tail record from the latest version and append it, first
appending a copy of the base record when this is the first update (the
copy points back at the base rid, the update record at the copy).  none
models the exceptions the source raises on states no reachable table
produces. -/
def Query.update (cfg : LConfig) (s : TableState) (primaryKey : Int)
    (columns : List (Option Int)) : Option (Bool × TableState) :=
  if columns.countP (fun c => c.isNone) = columns.length then some (true, s)
  else
    match locateIdx s (4 + s.key) primaryKey with
    | none => some (true, s)
    | some rids =>
      let collision :=
        match columns.getD s.key none with
        | none => false
        | some newPk => newPk ≠ primaryKey ∧ (locateIdx s (4 + s.key) newPk).isSome
      if collision then some (false, s)
      else
        let baseRid := rids.headD 0
        match getRecordVersion cfg s baseRid 0 with
        | none => none
        | some prevRecord =>
          match getRecordColumnVal s baseRid 0 with
          | none => none
          | some baseInd =>
            let updatedCols := applyUpd prevRecord.columns columns
            if baseInd = cfg.indNull then
              match insertToTailPage cfg s baseRid []
                  { indirection := baseRid, rid := -1, schemaEncoding := 0,
                    columns := prevRecord.columns } with
              | none => none
              | some (s1, baseCopyRid) =>
                match insertToTailPage cfg s1 baseRid prevRecord.columns
                    { indirection := baseCopyRid, rid := -1, schemaEncoding := 0,
                      columns := updatedCols } with
                | none => none
                | some (s2, _) => some (true, s2)
            else
              match insertToTailPage cfg s baseRid prevRecord.columns
                  { indirection := prevRecord.rid, rid := -1, schemaEncoding := 0,
                    columns := updatedCols } with
              | none => none
              | some (s1, _) => some (true, s1)

/-- The scenario of claim C3: insert one record, then apply the updates in
order.  The updates in the modelled scenarios always return some; getD
keeps the function total. -/
def runInsertThenUpdates (cfg : LConfig) (N keyIdx : Nat) (cols0 : List Int)
    (k : Int) (us : List (List (Option Int))) : TableState :=
  us.foldl (fun s u => ((Query.update cfg s k u).getD (true, s)).2)
    (Query.insert cfg (initTable N keyIdx) cols0).2

/-! ## The state shape after one insert and n cumulative updates

The following definitions describe, in closed form, the table state the
write path produces in the scenario of claim C3 (one record, primary key
untouched by the updates, no merge).  They are proved equal to the result
of running the embedded insert and update functions. -/

/-- The cumulative column values after a list of updates. -/
def cumCols (cols0 : List Int) (us : List (List (Option Int))) : List Int :=
  us.foldl applyUpd cols0

/-- The bit mask update_schema_encoding computes from the previous and the
updated column values. -/
def schemaBits (N : Nat) (old upd : List Int) : Int :=
  (List.range N).foldl
    (fun acc i => acc * 2 + (if old.getD i 0 ≠ upd.getD i 0 then 1 else 0)) (0 : Int)

/-- The schema-encoding mask of the base record after the updates: each
update ORs its diff bits into the running mask. -/
def schemaFold (N : Nat) (sch : Int) (prev : List Int) :
    List (List (Option Int)) → Int
  | [] => sch
  | u :: rest =>
    schemaFold N (Int.lor (schemaBits N prev (applyUpd prev u)) sch) (applyUpd prev u) rest

/-- Tail record number j of the chain (j = 0 is the base copy appended by
the first update, j = i is the record of update i): its rid is j + 1, its
indirection points at the previous chain member (the base rid 0 for the
copy), and it carries the cumulative values of the first j updates. -/
def tailEntry (cols0 : List Int) (us : List (List (Option Int))) (j : Nat) :
    StoredRecord :=
  { indirection := (j : Int)
    rid := (j : Int) + 1
    schemaEncoding := 0
    columns := cumCols cols0 (us.take j) }

/-- The heap entries of the first m tail records, appended in rid order. -/
def tailHeapList (cols0 : List Int) (us : List (List (Option Int))) :
    Nat → List (Int × StoredRecord)
  | 0 => []
  | m + 1 => tailHeapList cols0 us m ++ [((m : Int) + 1, tailEntry cols0 us m)]

/-- The page-directory entries of the first m tail records: tail slot j
lives in tail page 16 + j / M at offset j % M. -/
def tailPd (M : Nat) : Nat → List (Int × (Nat × Nat × Nat))
  | 0 => []
  | m + 1 => tailPd M m ++ [((m : Int) + 1, (0, 16 + m / M, m % M))]

/-- The base record after n updates: indirection at the newest tail record
(or INDIRECTION_NULL when there is none), rid 0, the accumulated schema
mask, and the originally inserted columns (no merge has run). -/
def baseRecAfter (cfg : LConfig) (N : Nat) (cols0 : List Int)
    (us : List (List (Option Int))) : StoredRecord :=
  { indirection := if us.length = 0 then cfg.indNull else (us.length : Int) + 1
    rid := 0
    schemaEncoding := schemaFold N 0 cols0 us
    columns := cols0 }

/-- The number of tail records after n updates: the first update appends
the base copy and its own record, every further update one record. -/
def tailCount (us : List (List (Option Int))) : Nat :=
  if us.length = 0 then 0 else us.length + 1

/-- The closed form of the table state after inserting cols0 (primary key
cols0[key]) into a fresh table and applying the updates in us. -/
def stateAfter (cfg : LConfig) (N keyIdx : Nat) (cols0 : List Int)
    (us : List (List (Option Int))) : TableState :=
  { numRecords := (tailCount us : Int) + 1
    numColumns := N
    key := keyIdx
    pageDirectory := ((0 : Int), (0, 0, 0)) :: tailPd cfg.pageCapacity (tailCount us)
    heap := ((0 : Int), baseRecAfter cfg N cols0 us) :: tailHeapList cols0 us (tailCount us)
    indices := (List.replicate (N + 4) none).set (4 + keyIdx)
      (some [(cols0.getD keyIdx 0, [(0 : Int)])])
    baseRids := [0]
    tps := 0
    numUpdates := (tailCount us : Int)
    numBaseSlots := 1
    numTailSlots := tailCount us
    numPageRanges := 1
    mergeQueue := [] }

/-- The record get_record_version returns at a non-positive version v in
the C3 scenario: the base record while no update happened, otherwise tail
record n + v of the chain. -/
def recordAtVersion (cfg : LConfig) (N : Nat) (cols0 : List Int)
    (us : List (List (Option Int))) (v : Int) : StoredRecord :=
  if us.length = 0 then baseRecAfter cfg N cols0 us
  else tailEntry cols0 us ((us.length : Int) + v).toNat

/-! ## Concrete scenario states -/

/-- A representative configuration: INDIRECTION_NULL = 0, M = 509 (the
capacity of a 4096-byte page with an 8-byte column width and three header
fields), MERGE_CONDITION = 100, CREATE_INDICES_CONDITION = 2. -/
def cfgEx : LConfig :=
  { indNull := 0, pageCapacity := 509, mergeCondition := 100, createIndicesCondition := 2 }

/-- A two-column table (key column 0) after inserting (1, 10). -/
def exState1 : TableState := (Query.insert cfgEx (initTable 2 0) [1, 10]).2

/-- The same table after additionally inserting (2, 11). -/
def exState2 : TableState := (Query.insert cfgEx exState1 [2, 11]).2

/-- The same table after additionally inserting (3, 12): three records,
only the primary-key column indexed. -/
def exState3 : TableState := (Query.insert cfgEx exState2 [3, 12]).2

/-! ## Association-list lemmas -/

theorem assocLookup_set_self {κ α : Type} [DecidableEq κ] (k : κ) (v : α) :
    ∀ l : List (κ × α), assocLookup k (assocSet k v l) = some v := by
  intro l
  induction l with
  | nil => simp [assocSet, assocLookup]
  | cons e rest ih =>
    by_cases h : e.1 = k
    · simp [assocSet, assocLookup, h]
    · simpa [assocSet, assocLookup, h] using ih

theorem assocLookup_set_ne {κ α : Type} [DecidableEq κ] (k k2 : κ) (v : α)
    (hne : k ≠ k2) : ∀ l : List (κ × α),
    assocLookup k2 (assocSet k v l) = assocLookup k2 l := by
  intro l
  induction l with
  | nil => simp [assocSet, assocLookup, hne]
  | cons e rest ih =>
    by_cases h : e.1 = k
    · simp [assocSet, assocLookup, h, hne]
    · by_cases h2 : e.1 = k2
      · simp [assocSet, assocLookup, h, h2, Ne.symm hne]
      · simp [assocSet, assocLookup, h, h2, ih]

theorem assocLookup_mem {κ α : Type} [DecidableEq κ] (k : κ) (v : α) :
    ∀ l : List (κ × α), assocLookup k l = some v → (k, v) ∈ l := by
  intro l
  induction l with
  | nil => simp [assocLookup]
  | cons e rest ih =>
    by_cases h : e.1 = k
    · intro hl
      simp only [assocLookup, h, if_pos] at hl
      have he : e = (k, v) := by
        obtain ⟨e1, e2⟩ := e
        simp only at h
        simp only [Option.some.injEq] at hl
        rw [h, hl]
      rw [← he]
      exact List.mem_cons_self e rest
    · intro hl
      simp only [assocLookup, h, if_neg, if_false] at hl
      exact List.mem_cons_of_mem e (ih hl)

theorem assocSet_eq_append {κ α : Type} [DecidableEq κ] (k : κ) (v : α) :
    ∀ l : List (κ × α), assocLookup k l = none → assocSet k v l = l ++ [(k, v)] := by
  intro l
  induction l with
  | nil => simp [assocSet]
  | cons e rest ih =>
    intro h
    by_cases he : e.1 = k
    · simp [assocLookup, he] at h
    · simp only [assocLookup, he, if_neg, if_false] at h
      simp [assocSet, he, ih h]

theorem assocLookup_append_of_none {κ α : Type} [DecidableEq κ] (k : κ)
    (l2 : List (κ × α)) : ∀ l : List (κ × α), assocLookup k l = none →
    assocLookup k (l ++ l2) = assocLookup k l2 := by
  intro l
  induction l with
  | nil => simp
  | cons e rest ih =>
    intro h
    by_cases he : e.1 = k
    · simp [assocLookup, he] at h
    · simp only [assocLookup, he, if_neg, if_false] at h
      simpa [assocLookup, he] using ih h

theorem assocLookup_erase_of_none {κ α : Type} [DecidableEq κ] (k k2 : κ) :
    ∀ l : List (κ × α), assocLookup k l = none →
    assocLookup k (assocErase k2 l) = none := by
  intro l
  induction l with
  | nil => simp [assocErase]
  | cons e rest ih =>
    intro h
    by_cases he : e.1 = k
    · simp [assocLookup, he] at h
    · simp only [assocLookup, he, if_neg, if_false] at h
      by_cases h2 : e.1 = k2
      · simpa [assocErase, h2] using h
      · simpa [assocErase, h2, assocLookup, he] using ih h

theorem getLast?_append_singleton {α : Type} (a : α) (l : List α) :
    (l ++ [a]).getLast? = some a := by
  rw [List.getLast?_append_cons]
  rfl

/-! ## Claim theorems: transaction and worker (C1, C2) -/

/-- C1: Transaction.run pre-acquires all locks of the single update query
(granted, since the lock table is empty), then the query returns False in
the execute phase.  The code does release every lock the transaction held
(the resulting lock manager is empty again), but run returns -1, not the
False the claim (and the docstring of run, which promises False on abort)
require: run calls self.abort() yet discards its False result and returns
-1.  This evaluates the embedded run at that failing input. -/
theorem transaction_run_exec_false_releases_but_returns_neg_one :
    Transaction.run 1 [{ pre := PreAcquire.exclusive (some [5]), execOk := false }]
      LockManager.init = (PyVal.pyNegOne, LockManager.init) := by
  decide

/-- C2: a worker running a single transaction whose run returns -1 (an
integrity violation).  Since -1 is truthy in Python, the `if val:` branch
of TransactionWorker.__run breaks out of the retry loop and appends True
to stats, so the elif val == -1 branch is dead and result counts the
violated transaction as committed: result = 1 where the claim requires 0. -/
theorem worker_counts_integrity_violation_as_committed :
    workerResult [[PyVal.pyNegOne]] = 1 := by
  decide

/-! ## Claim theorem: merge tail-page loop (C4) -/

/-- C4: a merge over a page range whose two full tail pages are numbered
17 and 16, with nothing absorbed yet (TPS 0) and a base page that is not
fully updated by the newest tail page, so the loop iterates twice.  The
loop body fetches the page numbered max_tp_num on every iteration, so both
iterations read tail page 17: the visited sequence is [17, 17], not the
[17, 16] descending sequence the claim (and the specification, which
flags this very variable mix-up as a source bug) prescribes. -/
theorem merge_refetches_newest_tail_page :
    mergeVisitedPages envC4 = [17, 17] := by
  decide

/-! ## Claim theorem: PhysicalPage.write out of range (C9) -/

/-- C9: PhysicalPage.write at offset M (the first out-of-range offset,
with M = 509 for the typical 4096-byte page) does not return False: it
executes self.lock.release() on a lock the method never acquired, which
raises RuntimeError in Python, modelled as the error result. -/
theorem physical_page_write_out_of_range_raises :
    PhysicalPage.write 509 PhysicalPage.init 42 509 =
      Except.error PyExn.releaseUnacquiredLock := by
  rfl

/-! ## Claim theorems: buffer pool (C5, C6) -/

/-- C5 counterexample: fetch pathA, then pathB, then pathA again into an
empty pool of capacity two.  The third call is a cache hit and returns
without touching the LRU queue, which stays [pathA, pathB]: the path of
the returned page is not at the back of the queue, contradicting the
claim for the already-cached case. -/
theorem lru_not_updated_on_cache_hit :
    ((((bpEmptyTwo.getPhysicalPage pathA).1.getPhysicalPage pathB).1.getPhysicalPage
      pathA).1.lruPages.getLast?) ≠ some pathA := by
  decide

/-- C5 (amended): get_physical_page returns the cached page and leaves the
pool and the LRU queue unchanged on a hit; on a miss it admits the loaded
page, which then resides in the pool with its path appended at the back of
the LRU queue. -/
theorem get_physical_page_spec (bp : Bufferpool) (path : PPath) :
    (∀ pg, assocLookup path bp.pages = some pg → bp.getPhysicalPage path = (bp, pg))
    ∧ (assocLookup path bp.pages = none →
        assocLookup path (bp.getPhysicalPage path).1.pages =
          some (bp.getPhysicalPage path).2
        ∧ (bp.getPhysicalPage path).1.lruPages.getLast? = some path) := by
  constructor
  · intro pg h
    unfold Bufferpool.getPhysicalPage Bufferpool.getPhysicalPageHelper
    rw [h]
  · intro h
    unfold Bufferpool.getPhysicalPage Bufferpool.getPhysicalPageHelper
    rw [h]
    exact ⟨assocLookup_set_self path _ _, getLast?_append_singleton path _⟩

/-- Witness for the amended C5 theorem at a concrete miss: fetching pathA
into the empty pool admits it and puts its path at the back of the queue. -/
theorem get_physical_page_spec_witness :
    assocLookup pathA (bpEmptyTwo.getPhysicalPage pathA).1.pages =
      some (bpEmptyTwo.getPhysicalPage pathA).2
    ∧ (bpEmptyTwo.getPhysicalPage pathA).1.lruPages.getLast? = some pathA :=
  (get_physical_page_spec bpEmptyTwo pathA).2 (by decide)

/-- C6 counterexample: a pool at capacity one whose only page is pinned.
Fetching a new page attempts an eviction, which fails, but the fetched
page is admitted anyway: afterwards two pages reside in a capacity-one
pool, contradicting the claims that the caller proceeds without admitting
and that residency never exceeds the capacity. -/
theorem bufferpool_exceeds_capacity_when_all_pinned :
    bpPinned.maxCapacity < (bpPinned.getPhysicalPage pathB).1.pages.length
    ∧ (assocLookup pathB (bpPinned.getPhysicalPage pathB).1.pages).isSome = true := by
  decide

/-- C6 (amended): when the pool is at capacity, every resident page is
pinned and the requested page is absent, the eviction attempt fails but
get_physical_page still admits the fetched page, leaving capacity + 1
resident pages. -/
theorem get_physical_page_admits_despite_failed_eviction (bp : Bufferpool)
    (path : PPath) (hcap : bp.pages.length = bp.maxCapacity)
    (hpin : ∀ e ∈ bp.pages, e.2.pinCount ≠ 0)
    (habs : assocLookup path bp.pages = none) :
    (bp.getPhysicalPage path).1.pages.length = bp.maxCapacity + 1 := by
  have hcapF : bp.hasCapacity = false := by
    unfold Bufferpool.hasCapacity
    rw [if_pos hcap]
  have hfind : bp.lruPages.find? (fun q =>
      match assocLookup q bp.pages with
      | some pg => pg.pinCount = 0
      | none => false) = none := by
    rw [List.find?_eq_none]
    intro q _
    cases hq : assocLookup q bp.pages with
    | none => simp [hq]
    | some pg =>
      have := hpin (q, pg) (assocLookup_mem q pg bp.pages hq)
      simp only at this
      simp [hq, this]
  have hevict : bp.evict = (bp, false) := by
    unfold Bufferpool.evict
    rw [if_neg (by omega), hfind]
  unfold Bufferpool.getPhysicalPage Bufferpool.getPhysicalPageHelper
  rw [habs]
  simp only [hcapF, Bool.not_false, Bool.true_and, if_true, hevict]
  rw [assocSet_eq_append path _ bp.pages habs]
  simp [hcap]

/-- Witness for the amended C6 theorem at the concrete pinned pool. -/
theorem get_physical_page_admits_despite_failed_eviction_witness :
    (bpPinned.getPhysicalPage pathB).1.pages.length = bpPinned.maxCapacity + 1 :=
  get_physical_page_admits_despite_failed_eviction bpPinned pathB (by decide)
    (by decide) (by decide)

/-! ## Claim theorems: select_version index creation (C7) -/

/-- C7 counterexample: a three-record table (CREATE_INDICES_CONDITION = 2,
so the record count 3 has crossed the threshold) selecting on the
unindexed column 1.  Because 3 % 2 is not 0, select_version does not build
the index: the column is still unindexed afterwards (the whole state is
unchanged) and the query was answered by a scan, contradicting the claim
that the index is built once the count has crossed the threshold. -/
theorem select_version_scans_past_threshold :
    cfgEx.createIndicesCondition ≤ exState3.numRecords
    ∧ exState3.indices.getD 5 none = none
    ∧ Query.selectVersion cfgEx exState3 10 1 [1, 1] 0 = ([[1, 10]], exState3)
    ∧ (Query.selectVersion cfgEx exState3 10 1 [1, 1] 0).2.indices.getD 5 none = none := by
  decide

/-- C7 (amended): on an unindexed search column, select_version builds the
index exactly when num_records is divisible by CREATE_INDICES_CONDITION
(and then answers through the fresh index); otherwise it leaves the state
unchanged and answers by scanning all base records at the requested
version. -/
theorem select_version_index_creation_modulo (cfg : LConfig) (s : TableState)
    (skey : Int) (idx : Nat) (proj : List Int) (v : Int)
    (hno : s.indices.getD (4 + idx) none = none) :
    (s.numRecords % cfg.createIndicesCondition ≠ 0 →
      Query.selectVersion cfg s skey idx proj v =
        ((Table.scan cfg s skey (4 + idx) v).map (fun r => projectCols proj r.columns), s))
    ∧ (s.numRecords % cfg.createIndicesCondition = 0 →
      Query.selectVersion cfg s skey idx proj v =
        (selectFromIndex cfg (createIndex cfg s (4 + idx)) skey idx proj v,
          createIndex cfg s (4 + idx))) := by
  constructor
  · intro h
    unfold Query.selectVersion
    rw [hno]
    simp [h]
  · intro h
    unfold Query.selectVersion
    rw [hno]
    simp [h]

/-- Witness for the amended C7 theorem: the three-record table takes the
scan branch, leaving the state unchanged. -/
theorem select_version_index_creation_modulo_witness :
    Query.selectVersion cfgEx exState3 10 1 [1, 1] 0 =
      ((Table.scan cfgEx exState3 10 5 0).map (fun r => projectCols [1, 1] r.columns),
        exState3) :=
  (select_version_index_creation_modulo cfgEx exState3 10 1 [1, 1] 0 (by decide)).1
    (by decide)

/-! ## Claim theorem: update on a missing primary key (C10) -/

/-- C10: Query.update with a primary key that the primary-key index does
not map returns True and leaves the whole table state unchanged: no tail
record, page, page-directory entry or index mapping is touched (the
all-None early return behaves identically, so the result holds for every
column vector). -/
theorem update_missing_primary_key_noop (cfg : LConfig) (s : TableState) (pk : Int)
    (u : List (Option Int)) (h : locateIdx s (4 + s.key) pk = none) :
    Query.update cfg s pk u = some (true, s) := by
  unfold Query.update
  by_cases hc : u.countP (fun c => c.isNone) = u.length
  · simp [hc]
  · simp [hc, h]

/-- Witness for C10: updating the absent key 2 in the one-record table
returns True with the state unchanged. -/
theorem update_missing_primary_key_noop_witness :
    Query.update cfgEx exState1 2 [some 5, none] = some (true, exState1) :=
  update_missing_primary_key_noop cfgEx exState1 2 [some 5, none] (by decide)

/-! ## Lock-manager lemmas and claim C8 -/

theorem mem_assocSet {κ α : Type} [DecidableEq κ] (k : κ) (v : α) :
    ∀ l : List (κ × α), ∀ e ∈ assocSet k v l, e = (k, v) ∨ e ∈ l := by
  intro l
  induction l with
  | nil => simp [assocSet]
  | cons f rest ih =>
    obtain ⟨f1, f2⟩ := f
    intro e he
    by_cases hf : f1 = k
    · rw [show assocSet k v ((f1, f2) :: rest) = (k, v) :: rest by
        simp [assocSet, hf]] at he
      rcases List.mem_cons.mp he with h | h
      · exact Or.inl h
      · exact Or.inr (List.mem_cons_of_mem _ h)
    · rw [show assocSet k v ((f1, f2) :: rest) = (f1, f2) :: assocSet k v rest by
        simp [assocSet, hf]] at he
      rcases List.mem_cons.mp he with h | h
      · exact Or.inr (by rw [h]; exact List.mem_cons_self _ _)
      · rcases ih e h with h2 | h2
        · exact Or.inl h2
        · exact Or.inr (List.mem_cons_of_mem _ h2)

theorem exclScan_isSome_of_noX (txn : Int) (fullLen : Nat) :
    ∀ l : List LockEntry, (∀ t : Int, ((LockMode.X, t) : LockEntry) ∉ l) →
    ((exclScan txn fullLen l).isSome ↔ ∀ lk ∈ l, lk.2 = txn) := by
  intro l
  induction l with
  | nil => simp [exclScan]
  | cons lk rest ih =>
    intro hnoX
    obtain ⟨m, t⟩ := lk
    cases m with
    | X => exact absurd (List.mem_cons_self _ _) (hnoX t)
    | S =>
      have hrest : ∀ t : Int, ((LockMode.X, t) : LockEntry) ∉ rest := by
        intro t2 ht2
        exact hnoX t2 (List.mem_cons_of_mem _ ht2)
      by_cases ht : t = txn
      · subst ht
        simp [exclScan, ih hrest]
      · simp [exclScan, ht]

theorem exclScan_isSome_iff (txn : Int) (fullLen : Nat) (l : List LockEntry)
    (hX : ∀ lk ∈ l, lk.1 = LockMode.X → l = [lk]) :
    ((exclScan txn fullLen l).isSome ↔ ∀ lk ∈ l, lk.2 = txn) := by
  by_cases hx : ∃ t : Int, ((LockMode.X, t) : LockEntry) ∈ l
  · obtain ⟨t, ht⟩ := hx
    have hl : l = [(LockMode.X, t)] := hX (LockMode.X, t) ht rfl
    subst hl
    by_cases htx : t = txn
    · subst htx
      simp [exclScan]
    · simp [exclScan, htx]
  · push_neg at hx
    exact exclScan_isSome_of_noX txn fullLen l hx

theorem exclScan_result (txn : Int) (l l2 : List LockEntry)
    (hX : ∀ lk ∈ l, lk.1 = LockMode.X → l = [lk])
    (hnd : (l.map Prod.snd).Nodup) (hne : l ≠ [])
    (h : exclScan txn l.length l = some l2) : l2 = [(LockMode.X, txn)] := by
  have hall : ∀ lk ∈ l, lk.2 = txn :=
    (exclScan_isSome_iff txn l.length l hX).mp (by rw [h]; rfl)
  have hsingle : ∃ lk : LockEntry, l = [lk] := by
    cases l with
    | nil => exact absurd rfl hne
    | cons a rest =>
      cases rest with
      | nil => exact ⟨a, rfl⟩
      | cons b rest2 =>
        exfalso
        have ha : a.2 = txn := hall a (List.mem_cons_self _ _)
        have hb : b.2 = txn := hall b (by simp)
        simp only [List.map_cons, List.nodup_cons, List.mem_cons, List.mem_map] at hnd
        exact hnd.1 (Or.inl (by rw [ha, hb]))
  obtain ⟨lk, hl⟩ := hsingle
  subst hl
  obtain ⟨m, t⟩ := lk
  have ht : t = txn := hall (m, t) (List.mem_cons_self _ _)
  subst ht
  cases m with
  | X =>
    simp only [exclScan, List.length_cons, List.length_nil] at h
    simp at h
    rw [← h]
  | S =>
    simp only [exclScan, List.length_cons, List.length_nil] at h
    simp at h
    rw [← h]

theorem wf_after_set (lm lm2 : LockManager) (key txn : Int)
    (hlocks2 : lm2.locks = assocSet key [(LockMode.X, txn)] lm.locks)
    (hwf : WFLockTable lm) : WFLockTable lm2 := by
  intro e he
  rw [hlocks2] at he
  rcases mem_assocSet key [(LockMode.X, txn)] lm.locks e he with h | h
  · subst h
    refine ⟨by simp, ?_, by simp⟩
    intro lk hlk _
    simp only [List.mem_singleton] at hlk
    rw [hlk]
  · exact hwf e h

theorem locksOf_after_set (lm lm2 : LockManager) (key txn : Int)
    (hlocks2 : lm2.locks = assocSet key [(LockMode.X, txn)] lm.locks) (r : Int) :
    locksOf lm2 r = if r = key then [(LockMode.X, txn)] else locksOf lm r := by
  unfold locksOf
  rw [hlocks2]
  by_cases hr : r = key
  · subst hr
    rw [assocLookup_set_self]
    simp
  · rw [assocLookup_set_ne key r _ (fun h => hr h.symm)]
    simp [hr]

theorem acquireExclusiveGo_after_set (txn key : Int) (rest : List Int)
    (lm lm2 : LockManager)
    (hlocks2 : lm2.locks = assocSet key [(LockMode.X, txn)] lm.locks)
    (hwf : WFLockTable lm)
    (hallkey : ∀ lk ∈ locksOf lm key, lk.2 = txn)
    (ih : ∀ lmx : LockManager, WFLockTable lmx →
      (((acquireExclusiveGo txn rest lmx).1 = true) ↔
        (∀ r ∈ rest, ∀ lk ∈ locksOf lmx r, lk.2 = txn))
      ∧ ((acquireExclusiveGo txn rest lmx).1 = true →
        ∀ r ∈ rest, locksOf (acquireExclusiveGo txn rest lmx).2 r = [(LockMode.X, txn)])
      ∧ (∀ r, r ∉ rest → locksOf (acquireExclusiveGo txn rest lmx).2 r = locksOf lmx r)) :
    (((acquireExclusiveGo txn rest lm2).1 = true) ↔
      (∀ r ∈ key :: rest, ∀ lk ∈ locksOf lm r, lk.2 = txn))
    ∧ ((acquireExclusiveGo txn rest lm2).1 = true →
      ∀ r ∈ key :: rest, locksOf (acquireExclusiveGo txn rest lm2).2 r = [(LockMode.X, txn)])
    ∧ (∀ r, r ∉ key :: rest → locksOf (acquireExclusiveGo txn rest lm2).2 r = locksOf lm r) := by
  have hwf2 : WFLockTable lm2 := wf_after_set lm lm2 key txn hlocks2 hwf
  have hloc := locksOf_after_set lm lm2 key txn hlocks2
  have hmine2 : ∀ r, (∀ lk ∈ locksOf lm2 r, lk.2 = txn) ↔ (∀ lk ∈ locksOf lm r, lk.2 = txn) := by
    intro r
    rw [hloc r]
    by_cases hr : r = key
    · subst hr
      simp only [if_pos rfl]
      constructor
      · intro _; exact hallkey
      · intro _ lk hlk
        rcases List.mem_cons.mp hlk with h | h
        · rw [h]
        · exact absurd h (List.not_mem_nil lk)
    · simp [hr]
  obtain ⟨ih1, ih2, ih3⟩ := ih lm2 hwf2
  refine ⟨?_, ?_, ?_⟩
  · rw [ih1]
    constructor
    · intro h r hr
      rcases List.mem_cons.mp hr with hr | hr
      · subst hr; exact hallkey
      · exact (hmine2 r).mp (h r hr)
    · intro h r hr
      exact (hmine2 r).mpr (h r (List.mem_cons_of_mem key hr))
  · intro hsucc r hr
    rcases List.mem_cons.mp hr with hr | hr
    · subst hr
      by_cases hrr : r ∈ rest
      · exact ih2 hsucc r hrr
      · rw [ih3 r hrr, hloc r, if_pos rfl]
    · exact ih2 hsucc r hr
  · intro r hr
    have hr1 : r ≠ key := fun h => hr (by rw [h]; exact List.mem_cons_self key rest)
    have hr2 : r ∉ rest := fun h => hr (List.mem_cons_of_mem key h)
    rw [ih3 r hr2, hloc r, if_neg hr1]

theorem acquireExclusiveGo_spec (txn : Int) :
    ∀ (keys : List Int) (lm : LockManager), WFLockTable lm →
    (((acquireExclusiveGo txn keys lm).1 = true) ↔
      (∀ r ∈ keys, ∀ lk ∈ locksOf lm r, lk.2 = txn))
    ∧ ((acquireExclusiveGo txn keys lm).1 = true →
      ∀ r ∈ keys, locksOf (acquireExclusiveGo txn keys lm).2 r = [(LockMode.X, txn)])
    ∧ (∀ r, r ∉ keys → locksOf (acquireExclusiveGo txn keys lm).2 r = locksOf lm r) := by
  intro keys
  induction keys with
  | nil =>
    intro lm hwf
    refine ⟨by simp [acquireExclusiveGo], ?_, ?_⟩
    · intro _ r hr
      exact absurd hr (List.not_mem_nil r)
    · intro r _
      rfl
  | cons key rest ih =>
    intro lm hwf
    cases hlk : assocLookup key lm.locks with
    | none =>
      have hstep : acquireExclusiveGo txn (key :: rest) lm =
          acquireExclusiveGo txn rest
            (addLockOwner { lm with locks := assocSet key [(LockMode.X, txn)] lm.locks } key txn) := by
        simp only [acquireExclusiveGo, hlk]
      have hlocks2 : (addLockOwner
          { lm with locks := assocSet key [(LockMode.X, txn)] lm.locks } key txn).locks =
          assocSet key [(LockMode.X, txn)] lm.locks := by
        unfold addLockOwner
        cases assocLookup txn { lm with
            locks := assocSet key [(LockMode.X, txn)] lm.locks }.lockOwners <;> rfl
      have hallkey : ∀ lk ∈ locksOf lm key, lk.2 = txn := by
        unfold locksOf
        rw [hlk]
        simp
      rw [hstep]
      exact acquireExclusiveGo_after_set txn key rest lm _ hlocks2 hwf hallkey ih
    | some l =>
      have hmem := assocLookup_mem key l lm.locks hlk
      obtain ⟨hne, hX, hnd⟩ := hwf (key, l) hmem
      have hlockskey : locksOf lm key = l := by unfold locksOf; rw [hlk]; rfl
      cases hscan : exclScan txn l.length l with
      | none =>
        have hstep : acquireExclusiveGo txn (key :: rest) lm = (false, lm) := by
          simp only [acquireExclusiveGo, hlk, hscan]
        have hnotall : ¬ ∀ lk ∈ l, lk.2 = txn := by
          intro hall
          have := (exclScan_isSome_iff txn l.length l hX).mpr hall
          rw [hscan] at this
          simp at this
        rw [hstep]
        refine ⟨?_, ?_, ?_⟩
        · simp only [Bool.false_eq_true, false_iff]
          intro h
          exact hnotall (by rw [← hlockskey]; exact h key (List.mem_cons_self key rest))
        · intro h
          simp at h
        · intro r _
          rfl
      | some l2 =>
        have hl2 : l2 = [(LockMode.X, txn)] := exclScan_result txn l l2 hX hnd hne hscan
        subst hl2
        have hstep : acquireExclusiveGo txn (key :: rest) lm =
            acquireExclusiveGo txn rest
              { lm with locks := assocSet key [(LockMode.X, txn)] lm.locks } := by
          simp only [acquireExclusiveGo, hlk, hscan]
        have hallkey : ∀ lk ∈ locksOf lm key, lk.2 = txn := by
          rw [hlockskey]
          exact (exclScan_isSome_iff txn l.length l hX).mp (by rw [hscan]; rfl)
        rw [hstep]
        exact acquireExclusiveGo_after_set txn key rest lm _ rfl hwf hallkey ih

/-- C8: on a well-formed lock table (the invariant of all reachable
states: stored lock lists are nonempty, an exclusive lock is the sole lock
on its record, and no transaction holds two locks on one record),
acquire_exclusive_lock grants exactly when, for every requested rid, every
lock on that rid is held by the requesting transaction (in particular when
no locks are held at all); it fails as soon as any other transaction holds
any lock, shared or exclusive, on a requested rid.  On success every
requested rid afterwards carries exactly one exclusive lock of this
transaction, which covers the upgrade of a sole shared lock. -/
theorem acquire_exclusive_lock_spec (lm : LockManager) (keys : List Int) (txn : Int)
    (hwf : WFLockTable lm) :
    (((lm.acquireExclusiveLock keys txn).1 = true) ↔
      (∀ r ∈ keys, ∀ lk ∈ locksOf lm r, lk.2 = txn))
    ∧ ((lm.acquireExclusiveLock keys txn).1 = true →
      ∀ r ∈ keys, locksOf (lm.acquireExclusiveLock keys txn).2 r = [(LockMode.X, txn)]) := by
  have h := acquireExclusiveGo_spec txn keys lm hwf
  exact ⟨h.1, h.2.1⟩

/-- Witness for C8: transaction 7 upgrades its sole shared lock on rid 5
and freshly locks rid 9; the request is granted and both rids end with
exactly one exclusive lock of transaction 7. -/
theorem acquire_exclusive_lock_spec_witness :
    ((LockManager.mk [(5, [(LockMode.S, 7)])] [(7, [5])]).acquireExclusiveLock
      [5, 9] 7).1 = true
    ∧ locksOf ((LockManager.mk [(5, [(LockMode.S, 7)])] [(7, [5])]).acquireExclusiveLock
      [5, 9] 7).2 5 = [(LockMode.X, 7)] := by
  have h := acquire_exclusive_lock_spec (LockManager.mk [(5, [(LockMode.S, 7)])] [(7, [5])])
    [5, 9] 7 (by decide)
  have hs : ((LockManager.mk [(5, [(LockMode.S, 7)])] [(7, [5])]).acquireExclusiveLock
      [5, 9] 7).1 = true := h.1.mpr (by decide)
  exact ⟨hs, h.2 hs 5 (by decide)⟩

/-! ## Lemmas for the C3 write-path induction -/

theorem assocLookup_append_of_some {κ α : Type} [DecidableEq κ] (k : κ) (v : α)
    (l2 : List (κ × α)) : ∀ l : List (κ × α), assocLookup k l = some v →
    assocLookup k (l ++ l2) = some v := by
  intro l
  induction l with
  | nil => simp [assocLookup]
  | cons e rest ih =>
    intro h
    by_cases he : e.1 = k
    · simp only [assocLookup, he, if_pos] at h
      simp [assocLookup, he, h]
    · simp only [assocLookup, he, if_neg, if_false] at h
      simpa [assocLookup, he] using ih h

theorem assocLookup_eq_none {κ α : Type} [DecidableEq κ] (k : κ) :
    ∀ l : List (κ × α), (∀ e ∈ l, e.1 ≠ k) → assocLookup k l = none := by
  intro l
  induction l with
  | nil => simp [assocLookup]
  | cons e rest ih =>
    intro h
    have he : e.1 ≠ k := h e (List.mem_cons_self e rest)
    have hrest : ∀ e2 ∈ rest, e2.1 ≠ k := fun e2 h2 => h e2 (List.mem_cons_of_mem e h2)
    simp [assocLookup, he, ih hrest]

theorem getD_set_self {α : Type} (v d : α) :
    ∀ (l : List α) (i : Nat), i < l.length → (l.set i v).getD i d = v := by
  intro l
  induction l with
  | nil => intro i h; simp at h
  | cons a rest ih =>
    intro i h
    cases i with
    | zero => rfl
    | succ i =>
      simp only [List.set_cons_succ, List.getD_cons_succ]
      exact ih i (by simpa using h)

theorem getD_set_ne {α : Type} (v d : α) :
    ∀ (l : List α) (i j : Nat), i ≠ j → (l.set i v).getD j d = l.getD j d := by
  intro l
  induction l with
  | nil => intro i j _; simp
  | cons a rest ih =>
    intro i j hij
    cases i with
    | zero =>
      cases j with
      | zero => exact absurd rfl hij
      | succ j => simp [List.getD_cons_succ]
    | succ i =>
      cases j with
      | zero => simp
      | succ j =>
        simp only [List.set_cons_succ, List.getD_cons_succ]
        exact ih i j (fun h => hij (by rw [h]))

theorem getD_replicate_self {α : Type} (a : α) :
    ∀ (m i : Nat), (List.replicate m a).getD i a = a := by
  intro m
  induction m with
  | zero => intro i; simp
  | succ m ih =>
    intro i
    cases i with
    | zero => simp [List.replicate_succ]
    | succ i =>
      rw [List.replicate_succ, List.getD_cons_succ]
      exact ih i

theorem applyUpd_length : ∀ (c : List Int) (u : List (Option Int)),
    (applyUpd c u).length = c.length := by
  intro c
  induction c with
  | nil => intro u; cases u <;> rfl
  | cons a rest ih =>
    intro u
    cases u with
    | nil => rfl
    | cons o os => simp [applyUpd, ih os]

theorem applyUpd_getD_none : ∀ (c : List Int) (u : List (Option Int)) (i : Nat),
    u.getD i none = none → (applyUpd c u).getD i 0 = c.getD i 0 := by
  intro c
  induction c with
  | nil => intro u i _; cases u <;> rfl
  | cons a rest ih =>
    intro u i hu
    cases u with
    | nil => rfl
    | cons o os =>
      cases i with
      | zero =>
        simp only [List.getD_cons_zero] at hu
        simp [applyUpd, hu]
      | succ i =>
        simp only [List.getD_cons_succ] at hu
        simp only [applyUpd, List.getD_cons_succ]
        exact ih os i hu

theorem cumCols_cons (cols0 : List Int) (u : List (Option Int))
    (us : List (List (Option Int))) :
    cumCols cols0 (u :: us) = cumCols (applyUpd cols0 u) us := rfl

theorem cumCols_append (cols0 : List Int) (us : List (List (Option Int)))
    (u : List (Option Int)) :
    cumCols cols0 (us ++ [u]) = applyUpd (cumCols cols0 us) u := by
  simp [cumCols, List.foldl_append]

theorem cumCols_length : ∀ (us : List (List (Option Int))) (cols0 : List Int),
    (cumCols cols0 us).length = cols0.length := by
  intro us
  induction us with
  | nil => intro cols0; rfl
  | cons u rest ih =>
    intro cols0
    rw [cumCols_cons, ih, applyUpd_length]

theorem cumCols_getD_key (key : Nat) : ∀ (us : List (List (Option Int))) (cols0 : List Int),
    (∀ u ∈ us, u.getD key none = none) →
    (cumCols cols0 us).getD key 0 = cols0.getD key 0 := by
  intro us
  induction us with
  | nil => intro cols0 _; rfl
  | cons u rest ih =>
    intro cols0 h
    rw [cumCols_cons, ih _ (fun w hw => h w (List.mem_cons_of_mem u hw)),
      applyUpd_getD_none cols0 u key (h u (List.mem_cons_self u rest))]

theorem schemaFold_append (N : Nat) : ∀ (us : List (List (Option Int))) (sch : Int)
    (prev : List Int) (u : List (Option Int)),
    schemaFold N sch prev (us ++ [u]) =
      Int.lor (schemaBits N (cumCols prev us) (applyUpd (cumCols prev us) u))
        (schemaFold N sch prev us) := by
  intro us
  induction us with
  | nil => intro sch prev u; rfl
  | cons w rest ih =>
    intro sch prev u
    have h1 : schemaFold N sch prev ((w :: rest) ++ [u]) =
        schemaFold N (Int.lor (schemaBits N prev (applyUpd prev w)) sch)
          (applyUpd prev w) (rest ++ [u]) := rfl
    rw [h1, ih]
    rfl

theorem take_append_singleton (j : Nat) {α : Type} (us : List α) (u : α)
    (h : j ≤ us.length) : (us ++ [u]).take j = us.take j := by
  rw [List.take_append_of_le_length h]

theorem tailEntry_append (cols0 : List Int) (us : List (List (Option Int)))
    (u : List (Option Int)) (j : Nat) (h : j ≤ us.length) :
    tailEntry cols0 (us ++ [u]) j = tailEntry cols0 us j := by
  unfold tailEntry
  rw [take_append_singleton j us u h]

theorem tailHeapList_append (cols0 : List Int) (us : List (List (Option Int)))
    (u : List (Option Int)) : ∀ m : Nat, m ≤ us.length + 1 →
    tailHeapList cols0 (us ++ [u]) m = tailHeapList cols0 us m := by
  intro m
  induction m with
  | zero => intro _; rfl
  | succ m ih =>
    intro h
    simp only [tailHeapList]
    rw [ih (by omega), tailEntry_append cols0 us u m (by omega)]

theorem tailHeapList_keys (cols0 : List Int) (us : List (List (Option Int))) :
    ∀ m : Nat, ∀ e ∈ tailHeapList cols0 us m, ∃ j : Nat, j < m ∧ e.1 = (j : Int) + 1 := by
  intro m
  induction m with
  | zero => intro e he; simp [tailHeapList] at he
  | succ m ih =>
    intro e he
    simp only [tailHeapList, List.mem_append, List.mem_singleton] at he
    rcases he with he | he
    · obtain ⟨j, hj, h1⟩ := ih e he
      exact ⟨j, by omega, h1⟩
    · exact ⟨m, by omega, by rw [he]⟩

theorem tailHeapList_lookup_lt (cols0 : List Int) (us : List (List (Option Int))) :
    ∀ (m j : Nat), j < m →
    assocLookup ((j : Int) + 1) (tailHeapList cols0 us m) = some (tailEntry cols0 us j) := by
  intro m
  induction m with
  | zero => intro j h; omega
  | succ m ih =>
    intro j h
    simp only [tailHeapList]
    by_cases hj : j < m
    · exact assocLookup_append_of_some _ _ _ _ (ih j hj)
    · have hjm : j = m := by omega
      subst hjm
      have hnone : assocLookup ((j : Int) + 1) (tailHeapList cols0 us j) = none := by
        apply assocLookup_eq_none
        intro e he
        obtain ⟨j2, hj2, he1⟩ := tailHeapList_keys cols0 us j e he
        rw [he1]
        intro hc
        omega
      rw [assocLookup_append_of_none _ _ _ hnone]
      simp [assocLookup]

theorem tailHeapList_lookup_none (cols0 : List Int) (us : List (List (Option Int)))
    (m : Nat) (r : Int) (h : ∀ j : Nat, j < m → r ≠ (j : Int) + 1) :
    assocLookup r (tailHeapList cols0 us m) = none := by
  apply assocLookup_eq_none
  intro e he
  obtain ⟨j, hj, he1⟩ := tailHeapList_keys cols0 us m e he
  rw [he1]
  intro hc
  exact h j hj hc.symm

theorem tailPd_keys (M : Nat) :
    ∀ m : Nat, ∀ e ∈ tailPd M m, ∃ j : Nat, j < m ∧ e.1 = (j : Int) + 1 := by
  intro m
  induction m with
  | zero => intro e he; simp [tailPd] at he
  | succ m ih =>
    intro e he
    simp only [tailPd, List.mem_append, List.mem_singleton] at he
    rcases he with he | he
    · obtain ⟨j, hj, h1⟩ := ih e he
      exact ⟨j, by omega, h1⟩
    · exact ⟨m, by omega, by rw [he]⟩

theorem tailPd_lookup_lt (M : Nat) : ∀ (m j : Nat), j < m →
    assocLookup ((j : Int) + 1) (tailPd M m) = some (0, 16 + j / M, j % M) := by
  intro m
  induction m with
  | zero => intro j h; omega
  | succ m ih =>
    intro j h
    simp only [tailPd]
    by_cases hj : j < m
    · exact assocLookup_append_of_some _ _ _ _ (ih j hj)
    · have hjm : j = m := by omega
      subst hjm
      have hnone : assocLookup ((j : Int) + 1) (tailPd M j) = none := by
        apply assocLookup_eq_none
        intro e he
        obtain ⟨j2, hj2, he1⟩ := tailPd_keys M j e he
        rw [he1]
        intro hc
        omega
      rw [assocLookup_append_of_none _ _ _ hnone]
      simp [assocLookup]

theorem tailPd_lookup_none (M : Nat) (m : Nat) (r : Int)
    (h : ∀ j : Nat, j < m → r ≠ (j : Int) + 1) :
    assocLookup r (tailPd M m) = none := by
  apply assocLookup_eq_none
  intro e he
  obtain ⟨j, hj, he1⟩ := tailPd_keys M m e he
  rw [he1]
  intro hc
  exact h j hj hc.symm

theorem tailCount_of_ne_nil (us : List (List (Option Int))) (hne : us ≠ []) :
    tailCount us = us.length + 1 := by
  unfold tailCount
  rw [if_neg]
  simpa using hne

theorem pdLookup_stateAfter_zero (cfg : LConfig) (N keyIdx : Nat) (cols0 : List Int)
    (us : List (List (Option Int))) :
    pdLookup (stateAfter cfg N keyIdx cols0 us) 0 = some (0, 0, 0) := by
  simp [pdLookup, stateAfter, assocLookup]

theorem heapLookup_stateAfter_zero (cfg : LConfig) (N keyIdx : Nat) (cols0 : List Int)
    (us : List (List (Option Int))) :
    heapLookup (stateAfter cfg N keyIdx cols0 us) 0 =
      some (baseRecAfter cfg N cols0 us) := by
  simp [heapLookup, stateAfter, assocLookup]

theorem pdLookup_stateAfter_tail (cfg : LConfig) (N keyIdx : Nat) (cols0 : List Int)
    (us : List (List (Option Int))) (j : Nat) (h : j < tailCount us) :
    pdLookup (stateAfter cfg N keyIdx cols0 us) ((j : Int) + 1) =
      some (0, 16 + j / cfg.pageCapacity, j % cfg.pageCapacity) := by
  unfold pdLookup stateAfter
  simp only [assocLookup]
  rw [if_neg (by omega : ¬ (0 : Int) = (j : Int) + 1)]
  exact tailPd_lookup_lt cfg.pageCapacity (tailCount us) j h

theorem heapLookup_stateAfter_tail (cfg : LConfig) (N keyIdx : Nat) (cols0 : List Int)
    (us : List (List (Option Int))) (j : Nat) (h : j < tailCount us) :
    heapLookup (stateAfter cfg N keyIdx cols0 us) ((j : Int) + 1) =
      some (tailEntry cols0 us j) := by
  unfold heapLookup stateAfter
  simp only [assocLookup]
  rw [if_neg (by omega : ¬ (0 : Int) = (j : Int) + 1)]
  exact tailHeapList_lookup_lt cols0 us (tailCount us) j h

theorem pdLookup_stateAfter_fresh (cfg : LConfig) (N keyIdx : Nat) (cols0 : List Int)
    (us : List (List (Option Int))) :
    pdLookup (stateAfter cfg N keyIdx cols0 us) ((tailCount us : Int) + 1) = none := by
  unfold pdLookup stateAfter
  simp only [assocLookup]
  rw [if_neg (by omega : ¬ (0 : Int) = (tailCount us : Int) + 1)]
  exact tailPd_lookup_none cfg.pageCapacity (tailCount us) _ (fun j hj => by omega)

theorem heapLookup_stateAfter_fresh (cfg : LConfig) (N keyIdx : Nat) (cols0 : List Int)
    (us : List (List (Option Int))) :
    heapLookup (stateAfter cfg N keyIdx cols0 us) ((tailCount us : Int) + 1) = none := by
  unfold heapLookup stateAfter
  simp only [assocLookup]
  rw [if_neg (by omega : ¬ (0 : Int) = (tailCount us : Int) + 1)]
  exact tailHeapList_lookup_none cols0 us (tailCount us) _ (fun j hj => by omega)

theorem getRecordColumnVal_stateAfter_zero (cfg : LConfig) (N keyIdx : Nat)
    (cols0 : List Int) (us : List (List (Option Int))) (col : Nat) :
    getRecordColumnVal (stateAfter cfg N keyIdx cols0 us) 0 col =
      some (projColumn (baseRecAfter cfg N cols0 us) col) := by
  unfold getRecordColumnVal
  rw [pdLookup_stateAfter_zero, heapLookup_stateAfter_zero]
  rfl

theorem getRecordColumnVal_stateAfter_tail (cfg : LConfig) (N keyIdx : Nat)
    (cols0 : List Int) (us : List (List (Option Int))) (j : Nat)
    (h : j < tailCount us) (col : Nat) :
    getRecordColumnVal (stateAfter cfg N keyIdx cols0 us) ((j : Int) + 1) col =
      some (projColumn (tailEntry cols0 us j) col) := by
  unfold getRecordColumnVal
  rw [pdLookup_stateAfter_tail cfg N keyIdx cols0 us j h,
    heapLookup_stateAfter_tail cfg N keyIdx cols0 us j h]
  rfl

theorem projColumn_zero (r : StoredRecord) : projColumn r 0 = r.indirection := rfl

theorem chase_stateAfter (cfg : LConfig) (N keyIdx : Nat) (cols0 : List Int)
    (us : List (List (Option Int))) (hne : us ≠ [])
    (hnull : cfg.indNull < 1 ∨ ((us.length : Int) + 1) < cfg.indNull) :
    ∀ (f r : Nat), 1 ≤ r → r ≤ us.length + 1 → f < r →
    chaseIndirection cfg (stateAfter cfg N keyIdx cols0 us) f ((r : Int)) =
      some (((r - f : Nat) : Int)) := by
  intro f
  induction f with
  | zero =>
    intro r _ _ _
    simp [chaseIndirection]
  | succ f ih =>
    intro r h1 h2 h3
    have htc : tailCount us = us.length + 1 := tailCount_of_ne_nil us hne
    have hj : r - 1 < tailCount us := by omega
    have hval : getRecordColumnVal (stateAfter cfg N keyIdx cols0 us) ((r : Int)) 0 =
        some (((r - 1 : Nat) : Int)) := by
      rw [show ((r : Int)) = ((r - 1 : Nat) : Int) + 1 by omega,
        getRecordColumnVal_stateAfter_tail cfg N keyIdx cols0 us (r - 1) hj 0,
        projColumn_zero]
      rfl
    have hneq : ¬ (((r - 1 : Nat) : Int) = cfg.indNull) := by
      rcases hnull with h | h <;> omega
    simp only [chaseIndirection, hval]
    rw [if_neg hneq]
    rw [ih (r - 1) (by omega) (by omega) (by omega)]
    have heq : r - 1 - f = r - (f + 1) := by omega
    rw [heq]

theorem getRecord_stateAfter_zero (cfg : LConfig) (N keyIdx : Nat) (cols0 : List Int)
    (us : List (List (Option Int))) :
    getRecord (stateAfter cfg N keyIdx cols0 us) 0 =
      some (baseRecAfter cfg N cols0 us) := by
  unfold getRecord
  rw [pdLookup_stateAfter_zero, heapLookup_stateAfter_zero]

theorem getRecord_stateAfter_tail (cfg : LConfig) (N keyIdx : Nat) (cols0 : List Int)
    (us : List (List (Option Int))) (j : Nat) (h : j < tailCount us) :
    getRecord (stateAfter cfg N keyIdx cols0 us) ((j : Int) + 1) =
      some (tailEntry cols0 us j) := by
  unfold getRecord
  rw [pdLookup_stateAfter_tail cfg N keyIdx cols0 us j h,
    heapLookup_stateAfter_tail cfg N keyIdx cols0 us j h]

theorem getRecordVersion_stateAfter (cfg : LConfig) (N keyIdx : Nat) (cols0 : List Int)
    (us : List (List (Option Int))) (v : Int)
    (hnull : cfg.indNull < 1 ∨ ((us.length : Int) + 1) < cfg.indNull)
    (hv1 : v ≤ 0) (hv2 : -(us.length : Int) ≤ v) :
    getRecordVersion cfg (stateAfter cfg N keyIdx cols0 us) 0 v =
      some (recordAtVersion cfg N cols0 us v) := by
  by_cases hne : us = []
  · subst hne
    have hind : (baseRecAfter cfg N cols0 []).indirection = cfg.indNull := by
      simp [baseRecAfter]
    unfold getRecordVersion
    rw [pdLookup_stateAfter_zero, getRecordColumnVal_stateAfter_zero]
    have hrec : recordAtVersion cfg N cols0 [] v = baseRecAfter cfg N cols0 [] := by
      simp [recordAtVersion]
    rw [projColumn_zero, hind]
    have h16 : ¬ (16 : Nat) ≤ 0 := by norm_num
    simp only [h16, if_false]
    by_cases hle : cfg.indNull ≤ (stateAfter cfg N keyIdx cols0 []).tps
    · rw [if_pos hle, getRecord_stateAfter_zero, hrec]
    · rw [if_neg hle]
      obtain ⟨f, hf⟩ : ∃ f, (1 - v).toNat = f + 1 := by
        refine ⟨(1 - v).toNat - 1, ?_⟩
        omega
      rw [hf]
      have hval : getRecordColumnVal (stateAfter cfg N keyIdx cols0 []) 0 0 =
          some cfg.indNull := by
        rw [getRecordColumnVal_stateAfter_zero, projColumn_zero, hind]
      simp only [chaseIndirection, hval, if_pos rfl, if_true, eq_self_iff_true]
      show getRecord (stateAfter cfg N keyIdx cols0 []) 0 = some (recordAtVersion cfg N cols0 [] v)
      rw [getRecord_stateAfter_zero, hrec]
  · have htc : tailCount us = us.length + 1 := tailCount_of_ne_nil us hne
    have hlen : us.length ≠ 0 := by simpa using hne
    have hind : (baseRecAfter cfg N cols0 us).indirection = (us.length : Int) + 1 := by
      simp [baseRecAfter, hlen]
    unfold getRecordVersion
    rw [pdLookup_stateAfter_zero, getRecordColumnVal_stateAfter_zero]
    rw [projColumn_zero, hind]
    have h16 : ¬ (16 : Nat) ≤ 0 := by norm_num
    simp only [h16, if_false]
    have htps : (stateAfter cfg N keyIdx cols0 us).tps = 0 := rfl
    rw [htps, if_neg (by omega : ¬ ((us.length : Int) + 1 ≤ 0))]
    obtain ⟨m, hm, hmv⟩ : ∃ m : Nat, (1 - v).toNat = m + 1 ∧ (m : Int) = -v := by
      refine ⟨(-v).toNat, by omega, by omega⟩
    rw [hm]
    have hval : getRecordColumnVal (stateAfter cfg N keyIdx cols0 us) 0 0 =
        some ((us.length : Int) + 1) := by
      rw [getRecordColumnVal_stateAfter_zero, projColumn_zero, hind]
    have hneq : ¬ (((us.length : Int) + 1) = cfg.indNull) := by
      rcases hnull with h | h <;> omega
    simp only [chaseIndirection, hval]
    rw [if_neg hneq]
    have hcast : ((us.length : Int) + 1) = ((us.length + 1 : Nat) : Int) := by push_cast; ring
    rw [hcast, chase_stateAfter cfg N keyIdx cols0 us hne hnull m (us.length + 1)
      (by omega) (by omega) (by omega)]
    have hsub : ((us.length + 1 - m : Nat) : Int) = ((us.length - m : Nat) : Int) + 1 := by
      omega
    rw [hsub]
    show getRecord (stateAfter cfg N keyIdx cols0 us) (((us.length - m : Nat) : Int) + 1) =
      some (recordAtVersion cfg N cols0 us v)
    rw [getRecord_stateAfter_tail cfg N keyIdx cols0 us (us.length - m) (by omega)]
    have hrec : recordAtVersion cfg N cols0 us v = tailEntry cols0 us (us.length - m) := by
      unfold recordAtVersion
      rw [if_neg hlen]
      have : ((us.length : Int) + v).toNat = us.length - m := by omega
      rw [this]
    rw [hrec]

theorem insertIdxLoop_skip (N keyIdx : Nat) (val : Option IdxMap) (cols0 : List Int)
    (rid : Int) : ∀ is : List Nat, keyIdx ∉ is →
    insertIdxLoop cols0 rid ((List.replicate (N + 4) none).set (4 + keyIdx) val) is =
      (List.replicate (N + 4) none).set (4 + keyIdx) val := by
  intro is
  induction is with
  | nil => intro _; rfl
  | cons i rest ih =>
    intro h
    have hi : i ≠ keyIdx := fun hh => h (by rw [hh]; exact List.mem_cons_self _ _)
    have hgd : ((List.replicate (N + 4) (none : Option IdxMap)).set (4 + keyIdx) val).getD
        (4 + i) none = none := by
      rw [getD_set_ne _ _ _ (4 + keyIdx) (4 + i) (by omega), getD_replicate_self]
    simp only [insertIdxLoop, hgd]
    exact ih (fun hh => h (List.mem_cons_of_mem i hh))

theorem insertIdxLoop_run (N keyIdx : Nat) (hkey : keyIdx < N) (cols0 : List Int)
    (rid : Int) : ∀ is : List Nat, is.Nodup →
    insertIdxLoop cols0 rid
        ((List.replicate (N + 4) none).set (4 + keyIdx) (some ([] : IdxMap))) is =
      (if keyIdx ∈ is then
        (List.replicate (N + 4) none).set (4 + keyIdx)
          (some [(cols0.getD keyIdx 0, [rid])])
      else (List.replicate (N + 4) none).set (4 + keyIdx) (some ([] : IdxMap))) := by
  intro is
  induction is with
  | nil =>
    intro _
    rw [if_neg (List.not_mem_nil keyIdx)]
    rfl
  | cons i rest ih =>
    intro hnd
    obtain ⟨hni, hnd2⟩ := List.nodup_cons.mp hnd
    by_cases hi : i = keyIdx
    · subst hi
      have hgd : ((List.replicate (N + 4) (none : Option IdxMap)).set (4 + i)
          (some ([] : IdxMap))).getD (4 + i) none = some ([] : IdxMap) := by
        apply getD_set_self
        simp
        omega
      simp only [insertIdxLoop, hgd]
      have hstep : ((List.replicate (N + 4) (none : Option IdxMap)).set (4 + i)
          (some ([] : IdxMap))).set (4 + i) (some (idxAdd [] (cols0.getD i 0) rid)) =
          (List.replicate (N + 4) none).set (4 + i) (some [(cols0.getD i 0, [rid])]) := by
        rw [List.set_set]
        rfl
      rw [hstep, insertIdxLoop_skip N i _ cols0 rid rest hni,
        if_pos (List.mem_cons_self i rest)]
    · have hgd : ((List.replicate (N + 4) (none : Option IdxMap)).set (4 + keyIdx)
          (some ([] : IdxMap))).getD (4 + i) none = none := by
        rw [getD_set_ne _ _ _ (4 + keyIdx) (4 + i) (by omega), getD_replicate_self]
      simp only [insertIdxLoop, hgd]
      rw [ih hnd2]
      by_cases hmem : keyIdx ∈ rest
      · rw [if_pos hmem, if_pos (List.mem_cons_of_mem i hmem)]
      · rw [if_neg hmem, if_neg (by
          intro hc
          rcases List.mem_cons.mp hc with hc | hc
          · exact hi hc.symm
          · exact hmem hc)]

theorem insert_initTable (cfg : LConfig) (N keyIdx : Nat) (cols0 : List Int)
    (hkey : keyIdx < N) (hlen : cols0.length = N) :
    (Query.insert cfg (initTable N keyIdx) cols0).2 = stateAfter cfg N keyIdx cols0 [] := by
  have hdup : (List.replicate (N + 4) (none : Option IdxMap)).getD (4 + keyIdx) none =
      none := getD_replicate_self none (N + 4) (4 + keyIdx)
  have hloop := insertIdxLoop_run N keyIdx hkey cols0 0 (List.range cols0.length)
    (List.nodup_range _)
  rw [if_pos (by rw [List.mem_range, hlen]; exact hkey)] at hloop
  unfold Query.insert insertWriteRecord createIndex
  simp only [initTable, hdup, hloop, stateAfter, tailCount, tailPd, tailHeapList,
    baseRecAfter, schemaFold, assocSet, Nat.zero_div, Nat.zero_mod, List.foldl_nil,
    List.length_nil, if_pos rfl, List.nil_append]
  norm_num

theorem assocLookup_mapAt_self {κ α : Type} [DecidableEq κ] (k : κ) (f : α → α) :
    ∀ l : List (κ × α), assocLookup k (assocMapAt k f l) = (assocLookup k l).map f := by
  intro l
  induction l with
  | nil => simp [assocMapAt, assocLookup]
  | cons e rest ih =>
    by_cases he : e.1 = k
    · simp [assocMapAt, assocLookup, he]
    · simpa [assocMapAt, assocLookup, he] using ih

theorem tailIdxLoop_fix (N keyIdx : Nat) (hkey : keyIdx < N) (k0 : Int)
    (columns updCols : List Int) (hc : columns.getD keyIdx 0 = k0)
    (hupd : updCols.getD keyIdx 0 = k0) :
    ∀ is : List Nat, tailIdxLoop (4 + keyIdx) 0 columns updCols is
        ((List.replicate (N + 4) none).set (4 + keyIdx) (some [(k0, [(0 : Int)])])) =
      some ((List.replicate (N + 4) none).set (4 + keyIdx) (some [(k0, [(0 : Int)])])) := by
  intro is
  induction is with
  | nil => rfl
  | cons i rest ih =>
    by_cases hi : i = keyIdx
    · subst hi
      have hgd : ((List.replicate (N + 4) (none : Option IdxMap)).set (4 + i)
          (some [(k0, [(0 : Int)])])).getD (4 + i) none = some [(k0, [(0 : Int)])] := by
        apply getD_set_self
        simp
        omega
      have hop : updateIndexOp
          ((List.replicate (N + 4) none).set (4 + i) (some [(k0, [(0 : Int)])]))
          (4 + i) (4 + i) (columns.getD i 0) (updCols.getD i 0) 0 =
          some ((List.replicate (N + 4) none).set (4 + i) (some [(k0, [(0 : Int)])])) := by
        unfold updateIndexOp
        rw [hgd, hc, hupd]
        simp [assocLookup, idxAdd, assocErase, List.set_set]
      simp only [tailIdxLoop, hgd, Option.isSome_some, if_true, hop]
      exact ih
    · have hgd : ((List.replicate (N + 4) (none : Option IdxMap)).set (4 + keyIdx)
          (some [(k0, [(0 : Int)])])).getD (4 + i) none = none := by
        rw [getD_set_ne _ _ _ (4 + keyIdx) (4 + i) (by omega), getD_replicate_self]
      simp only [tailIdxLoop, hgd, Option.isSome_none, Bool.false_eq_true, if_false]
      exact ih

theorem assocLookup_set_ne2 {κ α : Type} [DecidableEq κ] {k k2 : κ} (hne : k ≠ k2)
    (v : α) (l : List (κ × α)) :
    assocLookup k2 (assocSet k v l) = assocLookup k2 l :=
  assocLookup_set_ne k k2 v hne l

theorem insertToTailPage_eval (cfg : LConfig) (s : TableState) (columns : List Int)
    (newRec : StoredRecord) (base : StoredRecord)
    (hpd0 : assocLookup (0 : Int) s.pageDirectory = some (0, 0, 0))
    (hheap0 : assocLookup (0 : Int) s.heap = some base)
    (hrid : s.numRecords ≠ 0)
    (hcap : s.numBaseSlots < (0 + 1) * cfg.pageCapacity)
    (hloop : tailIdxLoop (4 + s.key) 0 columns newRec.columns
        (List.range columns.length) s.indices = some s.indices) :
    insertToTailPage cfg s 0 columns newRec =
      some ({ s with
        numRecords := s.numRecords + 1
        numTailSlots := s.numTailSlots + 1
        numUpdates := s.numUpdates + 1
        pageDirectory := assocSet s.numRecords
          (0, 16 + s.numTailSlots / cfg.pageCapacity, s.numTailSlots % cfg.pageCapacity)
          s.pageDirectory
        heap :=
          (if columns.length = 0 then
            assocMapAt 0 (fun r => { r with indirection := s.numRecords })
              (assocSet s.numRecords { newRec with rid := s.numRecords } s.heap)
          else
            assocMapAt 0
              (fun r => { r with schemaEncoding := Int.lor (schemaBits s.numColumns columns newRec.columns) base.schemaEncoding })
              (assocMapAt 0 (fun r => { r with indirection := s.numRecords })
                (assocSet s.numRecords { newRec with rid := s.numRecords } s.heap))) },
        s.numRecords) := by
  have h016 : ((0 : Nat) < 16) = True := by norm_num
  have hinner : (¬ (s.numBaseSlots < (0 + 1) * cfg.pageCapacity)) = False :=
    eq_false (fun h => h hcap)
  have hproj : ∀ r : StoredRecord, projColumn r 3 = r.schemaEncoding := fun r => rfl
  unfold insertToTailPage changeIndirection updateSchemaEncoding getRecordColumnVal
  unfold pdLookup heapLookup schemaBits
  by_cases hcols : columns.length = 0
  · have hloopnil : tailIdxLoop (4 + s.key) 0 columns newRec.columns (List.range 0)
        s.indices = some s.indices := rfl
    simp only [hpd0, assocLookup_set_ne2 hrid, assocLookup_mapAt_self, hheap0,
      h016, if_true, hcols, hloopnil, if_pos, hinner, if_false, ite_self,
      Option.map_some, Option.map_some']
  · have hcolsF : (columns.length = 0) = False := eq_false hcols
    simp only [hpd0, assocLookup_set_ne2 hrid, assocLookup_mapAt_self, hheap0,
      h016, if_true, hloop, hcolsF, if_false, hinner, ite_self, hproj,
      Option.map_some, Option.map_some']

theorem update_stateAfter_next (cfg : LConfig) (N keyIdx : Nat) (cols0 : List Int)
    (us : List (List (Option Int))) (u : List (Option Int)) (hne : us ≠ [])
    (hM : 1 < cfg.pageCapacity) (hkey : keyIdx < N) (hlen : cols0.length = N)
    (hprev : ∀ w ∈ us, w.getD keyIdx none = none)
    (hu0 : u.getD keyIdx none = none)
    (hux : ∃ c ∈ u, c ≠ none)
    (hnull : cfg.indNull < 1 ∨ ((us.length : Int) + 1) < cfg.indNull) :
    Query.update cfg (stateAfter cfg N keyIdx cols0 us) (cols0.getD keyIdx 0) u =
      some (true, stateAfter cfg N keyIdx cols0 (us ++ [u])) := by
  have htc : tailCount us = us.length + 1 := tailCount_of_ne_nil us hne
  have htc2 : tailCount (us ++ [u]) = us.length + 2 := by
    rw [tailCount_of_ne_nil (us ++ [u]) (by simp)]
    simp
  have hlen0 : us.length ≠ 0 := by simpa using hne
  have hcount : ¬ ((u.countP fun c => c.isNone) = u.length) := by
    intro hc
    obtain ⟨c, hcm, hcne⟩ := hux
    exact hcne (Option.isNone_iff_eq_none.mp (List.countP_eq_length.mp hc c hcm))
  have hidx : (stateAfter cfg N keyIdx cols0 us).indices.getD (4 + keyIdx) none =
      some [(cols0.getD keyIdx 0, [(0 : Int)])] := by
    show ((List.replicate (N + 4) none).set (4 + keyIdx) _).getD (4 + keyIdx) none = _
    apply getD_set_self
    simp
    omega
  have hlocate : locateIdx (stateAfter cfg N keyIdx cols0 us) (4 + keyIdx)
      (cols0.getD keyIdx 0) = some [(0 : Int)] := by
    unfold locateIdx
    rw [hidx]
    simp [assocLookup]
  have hgrv : getRecordVersion cfg (stateAfter cfg N keyIdx cols0 us) 0 0 =
      some (tailEntry cols0 us us.length) := by
    rw [getRecordVersion_stateAfter cfg N keyIdx cols0 us 0 hnull le_rfl (by omega)]
    unfold recordAtVersion
    rw [if_neg hlen0]
    have h0 : ((us.length : Int) + 0).toNat = us.length := by omega
    rw [h0]
  have hbInd : (baseRecAfter cfg N cols0 us).indirection = (us.length : Int) + 1 := by
    simp [baseRecAfter, hlen0]
  have hgcv : getRecordColumnVal (stateAfter cfg N keyIdx cols0 us) 0 0 =
      some ((us.length : Int) + 1) := by
    rw [getRecordColumnVal_stateAfter_zero, projColumn_zero, hbInd]
  have hnoteq : ¬ (((us.length : Int) + 1) = cfg.indNull) := by
    rcases hnull with h | h <;> omega
  have hcols_eq : (tailEntry cols0 us us.length).columns = cumCols cols0 us := by
    unfold tailEntry
    rw [List.take_length]
  have hrid_eq : (tailEntry cols0 us us.length).rid = (us.length : Int) + 1 := rfl
  have hpd0 : assocLookup (0 : Int) (stateAfter cfg N keyIdx cols0 us).pageDirectory =
      some (0, 0, 0) := pdLookup_stateAfter_zero cfg N keyIdx cols0 us
  have hheap0 : assocLookup (0 : Int) (stateAfter cfg N keyIdx cols0 us).heap =
      some (baseRecAfter cfg N cols0 us) := heapLookup_stateAfter_zero cfg N keyIdx cols0 us
  have hridne : (stateAfter cfg N keyIdx cols0 us).numRecords ≠ 0 := by
    show (tailCount us : Int) + 1 ≠ 0
    omega
  have hcap : (stateAfter cfg N keyIdx cols0 us).numBaseSlots <
      (0 + 1) * cfg.pageCapacity := by
    show (1 : Nat) < (0 + 1) * cfg.pageCapacity
    omega
  have hc1 : (cumCols cols0 us).getD keyIdx 0 = cols0.getD keyIdx 0 :=
    cumCols_getD_key keyIdx us cols0 hprev
  have hc2 : (applyUpd (cumCols cols0 us) u).getD keyIdx 0 = cols0.getD keyIdx 0 := by
    rw [applyUpd_getD_none _ u keyIdx hu0]
    exact hc1
  have hloop : tailIdxLoop (4 + (stateAfter cfg N keyIdx cols0 us).key) 0
      (cumCols cols0 us)
      ({ indirection := (us.length : Int) + 1, rid := -1, schemaEncoding := 0,
         columns := applyUpd (cumCols cols0 us) u } : StoredRecord).columns
      (List.range (cumCols cols0 us).length)
      (stateAfter cfg N keyIdx cols0 us).indices =
      some (stateAfter cfg N keyIdx cols0 us).indices :=
    tailIdxLoop_fix N keyIdx hkey (cols0.getD keyIdx 0) _ _ hc1 hc2 _
  have heval := insertToTailPage_eval cfg (stateAfter cfg N keyIdx cols0 us)
    (cumCols cols0 us)
    { indirection := (us.length : Int) + 1, rid := -1, schemaEncoding := 0,
      columns := applyUpd (cumCols cols0 us) u }
    (baseRecAfter cfg N cols0 us) hpd0 hheap0 hridne hcap hloop
  unfold Query.update
  rw [if_neg hcount]
  have hskey : (stateAfter cfg N keyIdx cols0 us).key = keyIdx := rfl
  rw [hskey, hlocate]
  simp only [List.headD_cons]
  rw [hu0]
  simp only
  rw [hgrv]
  simp only
  rw [hgcv]
  simp only
  rw [if_neg hnoteq, hrid_eq, hcols_eq, heval]
  simp only
  refine congrArg some (congrArg (Prod.mk true) ?_)
  have hcolsne : ((cumCols cols0 us).length = 0) = False := by
    rw [cumCols_length, hlen]
    simp
    omega
  have hkeyfresh : ∀ j : Nat, j < tailCount us →
      ¬ ((tailCount us : Int) + 1 = (j : Int) + 1) := by
    intro j hj
    omega
  have hpdfresh : assocLookup ((tailCount us : Int) + 1)
      (tailPd cfg.pageCapacity (tailCount us)) = none :=
    tailPd_lookup_none _ _ _ (fun j hj h => hkeyfresh j hj h)
  have hheapfresh : assocLookup ((tailCount us : Int) + 1)
      (tailHeapList cols0 us (tailCount us)) = none :=
    tailHeapList_lookup_none cols0 us _ _ (fun j hj h => hkeyfresh j hj h)
  show ({ stateAfter cfg N keyIdx cols0 us with
      numRecords := (stateAfter cfg N keyIdx cols0 us).numRecords + 1
      numTailSlots := (stateAfter cfg N keyIdx cols0 us).numTailSlots + 1
      numUpdates := (stateAfter cfg N keyIdx cols0 us).numUpdates + 1
      pageDirectory := _
      heap := _ } : TableState) = _
  unfold stateAfter
  simp only [hcolsne, if_false, TableState.mk.injEq, true_and, and_true]
  refine ⟨by omega, ?_, ?_, by omega, by omega⟩
  · -- page directory
    simp only [assocSet, show ((0 : Int) = (tailCount us : Int) + 1) = False by
      simp; omega, if_false]
    rw [assocSet_eq_append _ _ _ hpdfresh]
    rw [htc, htc2]
    simp only [List.cons.injEq, true_and]
    rfl
  · -- heap
    simp only [assocSet, show ((0 : Int) = (tailCount us : Int) + 1) = False by
      simp; omega, if_false, assocMapAt, if_pos]
    rw [assocSet_eq_append _ _ _ hheapfresh]
    simp only [List.cons.injEq, Prod.mk.injEq, true_and]
    constructor
    · -- the base record
      unfold baseRecAfter
      simp only [StoredRecord.mk.injEq, true_and, and_true]
      constructor
      · rw [show (us ++ [u]).length = us.length + 1 by simp,
          if_neg (by omega : ¬ (us.length + 1 = 0)), htc]
      · rw [schemaFold_append]
    · -- the tail records
      rw [htc2]
      rw [show tailHeapList cols0 (us ++ [u]) (us.length + 2) =
          tailHeapList cols0 (us ++ [u]) (us.length + 1) ++
            [(((us.length + 1 : Nat) : Int) + 1,
              tailEntry cols0 (us ++ [u]) (us.length + 1))] from rfl]
      rw [tailHeapList_append cols0 us u (us.length + 1) (by omega), htc]
      unfold tailEntry
      rw [show (us ++ [u]).take (us.length + 1) = us ++ [u] from by
        conv_lhs => rw [show us.length + 1 = (us ++ [u]).length by simp]
        exact List.take_length _]
      rw [cumCols_append]
      push_cast
      rfl

theorem update_stateAfter_first (cfg : LConfig) (N keyIdx : Nat) (cols0 : List Int)
    (u : List (Option Int))
    (hM : 1 < cfg.pageCapacity) (hkey : keyIdx < N) (hlen : cols0.length = N)
    (hu0 : u.getD keyIdx none = none)
    (hux : ∃ c ∈ u, c ≠ none)
    (hnull : cfg.indNull < 1 ∨ (1 : Int) < cfg.indNull) :
    Query.update cfg (stateAfter cfg N keyIdx cols0 []) (cols0.getD keyIdx 0) u =
      some (true, stateAfter cfg N keyIdx cols0 [u]) := by
  have hN0 : ¬ (N = 0) := by omega
  have hc0 : ¬ (cols0.length = 0) := by rw [hlen]; omega
  have hcount : ¬ ((u.countP fun c => c.isNone) = u.length) := by
    intro hc
    obtain ⟨c, hcm, hcne⟩ := hux
    exact hcne (Option.isNone_iff_eq_none.mp (List.countP_eq_length.mp hc c hcm))
  have hidx : (stateAfter cfg N keyIdx cols0 []).indices.getD (4 + keyIdx) none =
      some [(cols0.getD keyIdx 0, [(0 : Int)])] := by
    show ((List.replicate (N + 4) none).set (4 + keyIdx) _).getD (4 + keyIdx) none = _
    apply getD_set_self
    simp
    omega
  have hlocate : locateIdx (stateAfter cfg N keyIdx cols0 []) (4 + keyIdx)
      (cols0.getD keyIdx 0) = some [(0 : Int)] := by
    unfold locateIdx
    rw [hidx]
    simp [assocLookup]
  have hgrv : getRecordVersion cfg (stateAfter cfg N keyIdx cols0 []) 0 0 =
      some (baseRecAfter cfg N cols0 []) := by
    rw [getRecordVersion_stateAfter cfg N keyIdx cols0 [] 0
      (by rcases hnull with h | h
          · exact Or.inl h
          · right
            simpa using h)
      le_rfl (by simp)]
    rfl
  have hbInd : (baseRecAfter cfg N cols0 []).indirection = cfg.indNull := rfl
  have hgcv : getRecordColumnVal (stateAfter cfg N keyIdx cols0 []) 0 0 =
      some cfg.indNull := by
    rw [getRecordColumnVal_stateAfter_zero, projColumn_zero, hbInd]
  have hbc : (baseRecAfter cfg N cols0 []).columns = cols0 := rfl
  have heval1 : insertToTailPage cfg (stateAfter cfg N keyIdx cols0 []) 0 []
      { indirection := 0, rid := -1, schemaEncoding := 0, columns := cols0 } =
      some (({
        numRecords := 2, numColumns := N, key := keyIdx,
        pageDirectory := [((0 : Int), ((0 : Nat), (0 : Nat), (0 : Nat))), ((1 : Int), ((0 : Nat), (16 : Nat), (0 : Nat)))],
        heap := [((0 : Int), ⟨1, 0, 0, cols0⟩), ((1 : Int), ⟨0, 1, 0, cols0⟩)],
        indices := (List.replicate (N + 4) none).set (4 + keyIdx) (some [(cols0.getD keyIdx 0, [(0 : Int)])]),
        baseRids := [0], tps := 0, numUpdates := 1, numBaseSlots := 1,
        numTailSlots := 1, numPageRanges := 1, mergeQueue := [] } : TableState), 1) := by
    rw [insertToTailPage_eval cfg (stateAfter cfg N keyIdx cols0 []) []
      { indirection := 0, rid := -1, schemaEncoding := 0, columns := cols0 }
      (baseRecAfter cfg N cols0 [])
      (pdLookup_stateAfter_zero cfg N keyIdx cols0 [])
      (heapLookup_stateAfter_zero cfg N keyIdx cols0 [])
      (by show ((0 : Nat) : Int) + 1 ≠ 0; simp)
      (by show (1 : Nat) < (0 + 1) * cfg.pageCapacity; omega)
      rfl]
    norm_num [stateAfter, tailCount, tailPd, tailHeapList, baseRecAfter, schemaFold,
      assocSet, assocMapAt]
  have hloop2 : tailIdxLoop (4 + keyIdx) 0 cols0 (applyUpd cols0 u)
      ((List.range cols0.length))
      ((List.replicate (N + 4) none).set (4 + keyIdx)
        (some [(cols0.getD keyIdx 0, [(0 : Int)])])) =
      some ((List.replicate (N + 4) none).set (4 + keyIdx)
        (some [(cols0.getD keyIdx 0, [(0 : Int)])])) :=
    tailIdxLoop_fix N keyIdx hkey (cols0.getD keyIdx 0) cols0 (applyUpd cols0 u) rfl
      (by rw [applyUpd_getD_none _ u keyIdx hu0]) (List.range cols0.length)
  have heval2 : insertToTailPage cfg
      ({
        numRecords := 2, numColumns := N, key := keyIdx,
        pageDirectory := [((0 : Int), ((0 : Nat), (0 : Nat), (0 : Nat))), ((1 : Int), ((0 : Nat), (16 : Nat), (0 : Nat)))],
        heap := [((0 : Int), ⟨1, 0, 0, cols0⟩), ((1 : Int), ⟨0, 1, 0, cols0⟩)],
        indices := (List.replicate (N + 4) none).set (4 + keyIdx) (some [(cols0.getD keyIdx 0, [(0 : Int)])]),
        baseRids := [0], tps := 0, numUpdates := 1, numBaseSlots := 1,
        numTailSlots := 1, numPageRanges := 1, mergeQueue := [] } : TableState) 0 cols0
      { indirection := 1, rid := -1, schemaEncoding := 0, columns := applyUpd cols0 u } =
      some (({
        numRecords := 3, numColumns := N, key := keyIdx,
        pageDirectory := [((0 : Int), ((0 : Nat), (0 : Nat), (0 : Nat))), ((1 : Int), ((0 : Nat), (16 : Nat), (0 : Nat))), ((2 : Int), ((0 : Nat), 16 + 1 / cfg.pageCapacity, 1 % cfg.pageCapacity))],
        heap := [((0 : Int), ⟨2, 0, Int.lor (schemaBits N cols0 (applyUpd cols0 u)) 0, cols0⟩), ((1 : Int), ⟨0, 1, 0, cols0⟩), ((2 : Int), ⟨1, 2, 0, applyUpd cols0 u⟩)],
        indices := (List.replicate (N + 4) none).set (4 + keyIdx) (some [(cols0.getD keyIdx 0, [(0 : Int)])]),
        baseRids := [0], tps := 0, numUpdates := 2, numBaseSlots := 1,
        numTailSlots := 2, numPageRanges := 1, mergeQueue := [] } : TableState), 2) := by
    rw [insertToTailPage_eval cfg _ cols0
      { indirection := 1, rid := -1, schemaEncoding := 0, columns := applyUpd cols0 u }
      (⟨1, 0, 0, cols0⟩ : StoredRecord)
      (by simp [assocLookup]) (by simp [assocLookup]) (by norm_num)
      (by show (1 : Nat) < (0 + 1) * cfg.pageCapacity; omega) hloop2]
    norm_num [assocSet, assocMapAt, hc0]
  unfold Query.update
  rw [if_neg hcount]
  have hskey : (stateAfter cfg N keyIdx cols0 []).key = keyIdx := rfl
  rw [hskey, hlocate]
  simp only [List.headD_cons]
  rw [hu0]
  simp only
  rw [hgrv]
  simp only
  rw [hgcv]
  simp only
  rw [hbc, heval1]
  simp only
  rw [heval2]
  simp only
  refine congrArg some (congrArg (Prod.mk true) ?_)
  norm_num [stateAfter, tailCount, tailPd, tailHeapList, tailEntry, baseRecAfter,
    schemaFold, cumCols]

theorem runInsertThenUpdates_eq (cfg : LConfig) (N keyIdx : Nat) (cols0 : List Int)
    (hM : 1 < cfg.pageCapacity) (hkey : keyIdx < N) (hlen : cols0.length = N) :
    ∀ us : List (List (Option Int)),
    (∀ w ∈ us, w.getD keyIdx none = none ∧ ∃ c ∈ w, c ≠ none) →
    (cfg.indNull < 1 ∨ ((us.length : Int) + 1) < cfg.indNull) →
    runInsertThenUpdates cfg N keyIdx cols0 (cols0.getD keyIdx 0) us =
      stateAfter cfg N keyIdx cols0 us := by
  intro us
  induction us using List.reverseRecOn with
  | nil =>
    intro _ _
    unfold runInsertThenUpdates
    rw [List.foldl_nil]
    exact insert_initTable cfg N keyIdx cols0 hkey hlen
  | append_singleton us u ih =>
    intro hall hnull
    have hus : ∀ w ∈ us, w.getD keyIdx none = none ∧ ∃ c ∈ w, c ≠ none :=
      fun w hw => hall w (List.mem_append_left _ hw)
    have hu : u.getD keyIdx none = none ∧ ∃ c ∈ u, c ≠ none :=
      hall u (List.mem_append_right _ (List.mem_singleton.mpr rfl))
    have hlenapp : ((us ++ [u]).length : Int) = (us.length : Int) + 1 := by
      push_cast [List.length_append]
      simp
    have hnullus : cfg.indNull < 1 ∨ ((us.length : Int) + 1) < cfg.indNull := by
      rw [hlenapp] at hnull
      rcases hnull with h | h
      · exact Or.inl h
      · exact Or.inr (by omega)
    have hstep : Query.update cfg (stateAfter cfg N keyIdx cols0 us)
        (cols0.getD keyIdx 0) u = some (true, stateAfter cfg N keyIdx cols0 (us ++ [u])) := by
      by_cases hne : us = []
      · subst hne
        exact update_stateAfter_first cfg N keyIdx cols0 u hM hkey hlen hu.1 hu.2
          (by rcases hnullus with h | h
              · exact Or.inl h
              · exact Or.inr (by simpa using h))
      · exact update_stateAfter_next cfg N keyIdx cols0 us u hne hM hkey hlen
          (fun w hw => (hus w hw).1) hu.1 hu.2 hnullus
    unfold runInsertThenUpdates
    rw [List.foldl_append, List.foldl_cons, List.foldl_nil]
    show ((Query.update cfg (runInsertThenUpdates cfg N keyIdx cols0
        (cols0.getD keyIdx 0) us) (cols0.getD keyIdx 0) u).getD _).2 = _
    rw [ih hus hnullus, hstep]
    rfl

/-- C3: for a record inserted with primary key cols0[keyIdx] and then
updated n times (each update leaving the primary key untouched and
supplying at least one value, no merge running), select_version at
version 0 returns the cumulatively updated column values and at version
-n the originally inserted ones, both projected as requested. -/
theorem select_version_round_trip (cfg : LConfig) (N keyIdx : Nat) (cols0 : List Int)
    (us : List (List (Option Int))) (proj : List Int)
    (hM : 1 < cfg.pageCapacity) (hkey : keyIdx < N) (hlen : cols0.length = N)
    (hall : ∀ w ∈ us, w.getD keyIdx none = none ∧ ∃ c ∈ w, c ≠ none)
    (hnull : cfg.indNull < 1 ∨ ((us.length : Int) + 1) < cfg.indNull) :
    (Query.selectVersion cfg
        (runInsertThenUpdates cfg N keyIdx cols0 (cols0.getD keyIdx 0) us)
        (cols0.getD keyIdx 0) keyIdx proj 0).1 =
      [projectCols proj (cumCols cols0 us)] ∧
    (Query.selectVersion cfg
        (runInsertThenUpdates cfg N keyIdx cols0 (cols0.getD keyIdx 0) us)
        (cols0.getD keyIdx 0) keyIdx proj (-(us.length : Int))).1 =
      [projectCols proj cols0] := by
  rw [runInsertThenUpdates_eq cfg N keyIdx cols0 hM hkey hlen us hall hnull]
  have hidx : (stateAfter cfg N keyIdx cols0 us).indices.getD (4 + keyIdx) none =
      some [(cols0.getD keyIdx 0, [(0 : Int)])] := by
    show ((List.replicate (N + 4) none).set (4 + keyIdx) _).getD (4 + keyIdx) none = _
    apply getD_set_self
    simp
    omega
  have hlocate : locateIdx (stateAfter cfg N keyIdx cols0 us) (4 + keyIdx)
      (cols0.getD keyIdx 0) = some [(0 : Int)] := by
    unfold locateIdx
    rw [hidx]
    simp [assocLookup]
  have hcol0 : (recordAtVersion cfg N cols0 us 0).columns = cumCols cols0 us := by
    unfold recordAtVersion
    by_cases h : us.length = 0
    · rw [if_pos h]
      rw [List.length_eq_zero.mp h]
      rfl
    · rw [if_neg h]
      rw [show ((us.length : Int) + 0).toNat = us.length by omega]
      unfold tailEntry
      rw [List.take_length]
  have hcoln : (recordAtVersion cfg N cols0 us (-(us.length : Int))).columns = cols0 := by
    unfold recordAtVersion
    by_cases h : us.length = 0
    · rw [if_pos h]
      rfl
    · rw [if_neg h]
      rw [show ((us.length : Int) + -(us.length : Int)).toNat = 0 by omega]
      unfold tailEntry
      rw [List.take_zero]
      rfl
  have hsel : ∀ v : Int, v ≤ 0 → -(us.length : Int) ≤ v →
      (Query.selectVersion cfg (stateAfter cfg N keyIdx cols0 us) (cols0.getD keyIdx 0)
        keyIdx proj v).1 =
        [projectCols proj (recordAtVersion cfg N cols0 us v).columns] := by
    intro v hv1 hv2
    unfold Query.selectVersion
    rw [hidx]
    simp only [Option.isNone_some, Bool.false_eq_true, if_false]
    unfold selectFromIndex
    rw [hlocate]
    simp only [List.filterMap_cons, List.filterMap_nil]
    rw [getRecordVersion_stateAfter cfg N keyIdx cols0 us v hnull hv1 hv2]
    simp only [Option.map_some']
  refine ⟨?_, ?_⟩
  · rw [hsel 0 le_rfl (by omega), hcol0]
  · rw [hsel (-(us.length : Int)) (by omega) le_rfl, hcoln]

/-- Witness for C3: a two-column table, key 1 inserted as [1, 10], one
update setting column 1 to 99; select_version 0 projects [1, 99] and
select_version -1 the original [1, 10]. -/
theorem select_version_round_trip_witness :
    (Query.selectVersion cfgEx
        (runInsertThenUpdates cfgEx 2 0 [1, 10] ([1, 10].getD 0 0) [[none, some 99]])
        ([1, 10].getD 0 0) 0 [1, 1] 0).1 =
      [projectCols [1, 1] (cumCols [1, 10] [[none, some 99]])] ∧
    (Query.selectVersion cfgEx
        (runInsertThenUpdates cfgEx 2 0 [1, 10] ([1, 10].getD 0 0) [[none, some 99]])
        ([1, 10].getD 0 0) 0 [1, 1]
        (-(([[none, some 99]] : List (List (Option Int))).length : Int))).1 =
      [projectCols [1, 1] ([1, 10] : List Int)] :=
  select_version_round_trip cfgEx 2 0 [1, 10] [[none, some 99]] [1, 1]
    (by decide) (by decide) (by decide) (by decide) (by decide)
